import Mathlib

/-!
Shallow embedding of the `file_stat` module of `src/src/main.rs`
(a streaming-statistics program over a file of space-separated
floating-point numbers).

Modelling conventions:
* `f64` values are modelled by `FileStat.F`: NaN and infinity carry a
  sign bit, finite values are rationals.  NaN and infinity propagation
  follows IEEE-754.  Produced NaNs are canonicalised to the positive
  quiet NaN `F.nan false` (the hardware sign of a produced NaN is
  unspecified); signed zero is collapsed to `0`.  No claim below
  observes NaN payloads or signed zero.
* Arithmetic comes in two layers.  The exact layer (`fadd`, `fsub`,
  `fmul`, `fdiv`) computes on rationals without rounding; it serves
  the claims that are structural — branch shapes, buffer contents,
  comparisons, emptiness and failure propagation — where rounding
  plays no role.  The rounded layer (`roundF64` and `fadd64`,
  `fsub64`, `fmul64`, `fdiv64`, `average64`, `dispersion64`,
  `find_median64`) models IEEE-754 binary64: every finite result is
  rounded to 53 significant bits, round to nearest, ties to even,
  with overflow to infinity at `2^1024` and the subnormal grid
  `2^-1074` below `2^-1022`.  The claims about the numeric behaviour
  of the mean, the variance and the bisection (C3, C5, C9) are
  settled against this layer, on which rounding and overflow are
  faithful.
* The byte stream of the file is a `List Nat`; `BufRead::split(b' ')`
  is `rustSplit` (segments between 0x20 bytes, with the single empty
  segment produced by a trailing delimiter dropped, matching
  `read_until` returning 0 bytes at EOF).  `String::from_utf8` errors
  and `f64::from_str` errors are collapsed into one failure (`none`):
  the grammar `parseF64` accepts only ASCII bytes, and every token the
  Rust code accepts is ASCII, so the observable behaviour agrees.
* `f64::from_str` is modelled by `parseF64` following the documented
  grammar (sign, `inf`/`infinity`/`nan` case-insensitively, or a
  decimal mantissa with optional fraction and exponent); the numeric
  value of a finite literal is taken exactly instead of rounded.
* The recursive `find_median` is modelled with explicit fuel
  (`find_median_fuel` in the exact layer, `find_median64` in the
  rounded layer), `none` meaning the recursion has not finished within
  the given depth.  In the exact layer some depth always suffices for
  finite seeds; in the binary64 layer the recursion can repeat an
  identical interval forever, so no depth suffices.  The `expect`
  panic in `median` is modelled as `Except.error` with the panic
  message.
* The `i64`/`u64` counters are modelled by `Int`/`Nat` (no wrapping;
  no claim is about streams of length at least 2 to the 63).
-/

namespace FileStat

/-- Model of an `f64` value: NaN with sign, infinity with sign, or an
exact finite rational. -/
inductive F : Type where
  | nan (neg : Bool)
  | inf (neg : Bool)
  | fin (q : ℚ)
deriving DecidableEq

/-- IEEE-754 comparison `a <= b` on `f64`: false whenever either side
is NaN. -/
def fleIEEE : F → F → Bool
  | .nan _, _ => false
  | _, .nan _ => false
  | .inf true, _ => true
  | _, .inf true => false
  | _, .inf false => true
  | .inf false, _ => false
  | .fin a, .fin b => decide (a ≤ b)

/-- IEEE-754 addition. -/
def fadd : F → F → F
  | .nan _, _ => .nan false
  | _, .nan _ => .nan false
  | .inf a, .inf b => if a = b then .inf a else .nan false
  | .inf a, .fin _ => .inf a
  | .fin _, .inf b => .inf b
  | .fin x, .fin y => .fin (x + y)

/-- IEEE-754 subtraction. -/
def fsub : F → F → F
  | .nan _, _ => .nan false
  | _, .nan _ => .nan false
  | .inf a, .inf b => if a = b then .nan false else .inf a
  | .inf a, .fin _ => .inf a
  | .fin _, .inf b => .inf (!b)
  | .fin x, .fin y => .fin (x - y)

/-- IEEE-754 multiplication. -/
def fmul : F → F → F
  | .nan _, _ => .nan false
  | _, .nan _ => .nan false
  | .inf a, .inf b => .inf (xor a b)
  | .inf a, .fin y => if y = 0 then .nan false else .inf (xor a (decide (y < 0)))
  | .fin x, .inf b => if x = 0 then .nan false else .inf (xor (decide (x < 0)) b)
  | .fin x, .fin y => .fin (x * y)

/-- IEEE-754 division (with the model's unsigned zero read as `+0`). -/
def fdiv : F → F → F
  | .nan _, _ => .nan false
  | _, .nan _ => .nan false
  | .inf _, .inf _ => .nan false
  | .inf a, .fin y => .inf (xor a (decide (y < 0)))
  | .fin _, .inf _ => .fin 0
  | .fin x, .fin y =>
    if y = 0 then (if x = 0 then .nan false else .inf (decide (x < 0)))
    else .fin (x / y)

/-- `f64::abs`: clears the sign bit. -/
def fabs : F → F
  | .nan _ => .nan false
  | .inf _ => .inf false
  | .fin q => .fin |q|

/-- `f64::min`: if one argument is NaN the other is returned. -/
def fmin (a b : F) : F :=
  match a, b with
  | .nan _, .nan _ => .nan false
  | .nan _, y => y
  | x, .nan _ => x
  | x, y => if fleIEEE x y then x else y

/-- `f64::max`: if one argument is NaN the other is returned. -/
def fmax (a b : F) : F :=
  match a, b with
  | .nan _, .nan _ => .nan false
  | .nan _, y => y
  | x, .nan _ => x
  | x, y => if fleIEEE x y then y else x

/-- Rank of a value in the `f64::total_cmp` order (NaN payloads and
signed zero collapsed, which no claim observes):
negative NaN < negative infinity < finite < positive infinity
< positive NaN. -/
def totalKey : F → ℕ
  | .nan true => 0
  | .inf true => 1
  | .fin _ => 2
  | .inf false => 3
  | .nan false => 4

/-- Comparison of two rationals as an `Ordering`. -/
def qcmp (x y : ℚ) : Ordering :=
  if x < y then .lt else if y < x then .gt else .eq

/-- `f64::total_cmp`. -/
def F.totalCmp (a b : F) : Ordering :=
  match a, b with
  | .fin x, .fin y => qcmp x y
  | x, y => qcmp (totalKey x) (totalKey y)

/-! ### Stream-level statistics (`List F` holds the parsed values of
one scan, in file order; the file is re-enumerable so every statistic
folds over the same list). -/

/-- `len`: the closure `|_| size += 1` folded over the scan. -/
def len (s : List F) : ℕ :=
  s.foldl (fun n _ => n + 1) 0

/-- One step of the `min_max` scan:
`val_min.insert(x.min(val_min.unwrap_or(x)))` and the `max` twin. -/
def minMaxStep (p : Option F × Option F) (x : F) : Option F × Option F :=
  (some (fmin x (p.1.getD x)), some (fmax x (p.2.getD x)))

/-- `min_max`: running minimum and maximum; `val_min.zip(val_max)`. -/
def min_max (s : List F) : Option (F × F) :=
  match s.foldl minMaxStep (none, none) with
  | (some a, some b) => some (a, b)
  | _ => none

/-- One step of the `average` scan: `sum += x; len += 1`. -/
def sumLenStep (p : F × ℕ) (x : F) : F × ℕ :=
  (fadd p.1 x, p.2 + 1)

/-- `average`: `sum / len as f64` after one scan. -/
def average (s : List F) : F :=
  let p := s.foldl sumLenStep (.fin 0, 0)
  fdiv p.1 (.fin (p.2 : ℚ))

/-- One step of the second `dispersion` scan:
`sum += (x - x_avr).powi(2); len += 1`. -/
def sqDevStep (m : F) (p : F × ℕ) (x : F) : F × ℕ :=
  (fadd p.1 (fmul (fsub x m) (fsub x m)), p.2 + 1)

/-- `dispersion`: mean by a first scan, then `sum_sq / len`. -/
def dispersion (s : List F) : F :=
  let m := average s
  let p := s.foldl (sqDevStep m) (.fin 0, 0)
  fdiv p.1 (.fin (p.2 : ℚ))

/-- The `(less, eq, greater)` counters of one `is_median` scan,
classifying every value against `val` with `total_cmp`. -/
def countTriple (s : List F) (val : F) : ℤ × ℤ × ℤ :=
  s.foldl
    (fun c x =>
      match F.totalCmp x val with
      | .lt => (c.1 + 1, c.2.1, c.2.2)
      | .eq => (c.1, c.2.1 + 1, c.2.2)
      | .gt => (c.1, c.2.1, c.2.2 + 1))
    (0, 0, 0)

/-- `is_median`: scan once, then compare the counters. -/
def is_median (s : List F) (val : F) : Ordering :=
  let c := countTriple s val
  if |c.2.2 - c.1| < c.2.1 + 1 then .eq
  else if c.2.2 < c.1 then .lt
  else .gt

/-- `find_median`, with the recursion depth made explicit as fuel
(`none` = recursion not finished within the given depth; the Rust
function is genuinely non-terminating on NaN seeds, where
`(left - right).abs() <= 0.001` is always false). -/
def find_median_fuel : ℕ → List F → F → F → Option F
  | 0, _, _, _ => none
  | fuel + 1, s, left, right =>
    if fleIEEE (fabs (fsub left right)) (.fin (1 / 1000)) then some left
    else
      let mid := fdiv (fadd right left) (.fin 2)
      match is_median s mid with
      | .lt => find_median_fuel fuel s left mid
      | .eq => find_median_fuel fuel s left mid
      | .gt => find_median_fuel fuel s mid right

/-- `median`: seeds the search with min and max; the
`.expect("median requires 1+ value")` panic on an empty stream is the
`Except.error`. -/
def median (fuel : ℕ) (s : List F) : Except String (Option F) :=
  match min_max s with
  | none => .error "median requires 1+ value"
  | some (mn, mx) => .ok (find_median_fuel fuel s mn mx)

/-- One step of the `tails` scan: bounded push to the left buffer,
push-back plus pop-front on overflow for the right buffer. -/
def tailsStep (k : ℕ) (p : List F × List F) (x : F) : List F × List F :=
  let l := if p.1.length < k then p.1 ++ [x] else p.1
  let r0 := p.2 ++ [x]
  let r := if k < r0.length then r0.tail else r0
  (l, r)

/-- `tails`: first-`k` buffer and last-`k` FIFO window after one scan. -/
def tails (s : List F) (k : ℕ) : List F × List F :=
  s.foldl (tailsStep k) ([], [])

/-! ### Byte level: `for_file` opens the file and splits its bytes on
`' ' as u8`, parsing each segment as an `f64`. -/

/-- ASCII digit test. -/
def isDigit (b : ℕ) : Bool := 48 ≤ b && b ≤ 57

/-- Numeric value of a digit string. -/
def digitsToNat (ds : List ℕ) : ℕ :=
  ds.foldl (fun a b => 10 * a + (b - 48)) 0

/-- Value of a fraction-part digit string. -/
def fracVal (ds : List ℕ) : ℚ :=
  (digitsToNat ds : ℚ) / 10 ^ ds.length

/-- Strip one optional leading sign byte; returns (negative?, rest). -/
def stripSign (t : List ℕ) : Bool × List ℕ :=
  match t with
  | b :: r => if b = 45 then (true, r) else if b = 43 then (false, r) else (false, t)
  | [] => (false, t)

/-- ASCII lower-casing of one byte. -/
def lowerByte (b : ℕ) : ℕ := if 65 ≤ b && b ≤ 90 then b + 32 else b

/-- Exponent part after the `e`: optional sign then a nonempty digit
string. -/
def parseExpPart (t : List ℕ) : Option ℤ :=
  if !(stripSign t).2.isEmpty && (stripSign t).2.all isDigit then
    some
      (if (stripSign t).1 then -(digitsToNat (stripSign t).2 : ℤ)
       else (digitsToNat (stripSign t).2 : ℤ))
  else none

/-- Unsigned numeric part of the `f64` grammar:
`Count (. Count?)? Exp?  |  . Count Exp?`, with the exact value. -/
def parseNumber (t : List ℕ) : Option ℚ :=
  match t.dropWhile isDigit with
  | [] =>
    if (t.takeWhile isDigit).isEmpty then none
    else some (digitsToNat (t.takeWhile isDigit) : ℚ)
  | c :: r =>
    if c = 46 then
      if (t.takeWhile isDigit).isEmpty && (r.takeWhile isDigit).isEmpty then none
      else
        match r.dropWhile isDigit with
        | [] =>
          some ((digitsToNat (t.takeWhile isDigit) : ℚ) + fracVal (r.takeWhile isDigit))
        | e :: r4 =>
          if e = 101 || e = 69 then
            (parseExpPart r4).map
              (fun ex =>
                ((digitsToNat (t.takeWhile isDigit) : ℚ) + fracVal (r.takeWhile isDigit))
                  * (10 : ℚ) ^ ex)
          else none
    else if (c = 101 || c = 69) && !(t.takeWhile isDigit).isEmpty then
      (parseExpPart r).map (fun ex => (digitsToNat (t.takeWhile isDigit) : ℚ) * (10 : ℚ) ^ ex)
    else none

/-- `f64::from_str` on the bytes of one token: optional sign, then
`inf`, `infinity` or `nan` case-insensitively, or a number. -/
def parseF64 (t : List ℕ) : Option F :=
  if (stripSign t).2.map lowerByte = [105, 110, 102]
      ∨ (stripSign t).2.map lowerByte = [105, 110, 102, 105, 110, 105, 116, 121] then
    some (F.inf (stripSign t).1)
  else if (stripSign t).2.map lowerByte = [110, 97, 110] then
    some (F.nan (stripSign t).1)
  else
    (parseNumber (stripSign t).2).map (fun q => F.fin (if (stripSign t).1 then -q else q))

/-- `BufRead::split` segments: split on the delimiter 0x20, every
segment with the delimiter stripped, the segment after the last
delimiter included even without a trailing delimiter. -/
def splitBytes (acc : List ℕ) : List ℕ → List (List ℕ)
  | [] => [acc.reverse]
  | b :: bs => if b = 32 then acc.reverse :: splitBytes [] bs else splitBytes (b :: acc) bs

/-- The token list `reader.split(32)` yields: `read_until` reads zero
bytes at EOF, so exactly one empty segment arising from a trailing
delimiter (or an empty file) is not yielded. -/
def rustSplit (src : List ℕ) : List (List ℕ) :=
  let parts := splitBytes [] src
  if parts.getLast? = some [] then parts.dropLast else parts

/-- Parse every token, aborting the scan on the first failure (the `?`
on `parse` inside the loop); no partial result survives. -/
def parseAll : List (List ℕ) → Option (List F)
  | [] => some []
  | t :: ts =>
    match parseF64 t with
    | none => none
    | some v => (parseAll ts).map (fun vs => v :: vs)

/-- `for_file`: the value stream one scan of the source yields, or
`none` if some token fails to parse. -/
def for_file (src : List ℕ) : Option (List F) :=
  parseAll (rustSplit src)

/-- `len` of a source. -/
def lenSrc (src : List ℕ) : Option ℕ := (for_file src).map len

/-- `min_max` of a source. -/
def min_maxSrc (src : List ℕ) : Option (Option (F × F)) :=
  (for_file src).map min_max

/-- `average` of a source. -/
def averageSrc (src : List ℕ) : Option F := (for_file src).map average

/-- `dispersion` of a source (both of its scans read the same
re-enumerable source, so one parse of the stream serves both). -/
def dispersionSrc (src : List ℕ) : Option F := (for_file src).map dispersion

/-- `median` of a source. -/
def medianSrc (fuel : ℕ) (src : List ℕ) : Option (Except String (Option F)) :=
  (for_file src).map (median fuel)

/-- `tails` of a source. -/
def tailsSrc (src : List ℕ) (k : ℕ) : Option (List F × List F) :=
  (for_file src).map (fun s => tails s k)

/-- Inverse of splitting: interleave the tokens with the 0x20
delimiter.  Used to state that the scan splits on that byte only. -/
def joinWith : List (List ℕ) → List ℕ
  | [] => []
  | [t] => t
  | t :: ts => t ++ 32 :: joinWith ts

/-- The bytes that can occur in a token accepted by `parseF64`:
digits, the signs, the dot, the exponent markers, and the letters of
`inf`, `infinity`, `nan` in either case. -/
def allowed (b : ℕ) : Bool :=
  isDigit b ||
    [43, 45, 46, 69, 101, 105, 110, 102, 116, 121, 97, 73, 78, 70, 84, 89, 65].contains b

/-! ### The rounded layer: IEEE-754 binary64 arithmetic.  `roundF64`
rounds a rational to the nearest double (53 significant bits, ties to
even, overflow to infinity, subnormal grid below `2^-1022`); the
`..64` operations wrap the exact operation in this rounding, exactly
as the hardware does for `+ - * /` of doubles. -/

/-- `f64` negation: flips the sign bit. -/
def fnegF : F → F
  | .nan s => .nan (!s)
  | .inf s => .inf (!s)
  | .fin q => .fin (-q)

/-- Binade exponent: for `q > 0`, the integer `e` with
`2^e <= q < 2^(e+1)`. -/
def qexp (q : ℚ) : ℤ :=
  if (2 : ℚ) ^ ((Nat.log2 q.num.toNat : ℤ) - (Nat.log2 q.den : ℤ)) ≤ q then
    (Nat.log2 q.num.toNat : ℤ) - (Nat.log2 q.den : ℤ)
  else (Nat.log2 q.num.toNat : ℤ) - (Nat.log2 q.den : ℤ) - 1

/-- Exponent of the rounding grid for the binade of `q`: 52 bits after
the leading one, clamped at the subnormal grid `2^-1074`. -/
def pexp64 (q : ℚ) : ℤ := max (qexp |q| - 52) (-1074)

/-- Lower grid point index of `|q|`. -/
def flo64 (q : ℚ) : ℤ := ⌊|q| / 2 ^ pexp64 q⌋

/-- Rounded grid point index of `|q|`: nearest, ties to even. -/
def rnd64 (q : ℚ) : ℤ :=
  if |q| / 2 ^ pexp64 q - flo64 q < 1 / 2 then flo64 q
  else if 1 / 2 < |q| / 2 ^ pexp64 q - flo64 q then flo64 q + 1
  else if flo64 q % 2 = 0 then flo64 q else flo64 q + 1

/-- Round a rational to the nearest binary64 value. -/
def roundF64 (q : ℚ) : F :=
  if q = 0 then F.fin 0
  else if (2 : ℚ) ^ (1024 : ℤ) ≤ rnd64 q * 2 ^ pexp64 q then F.inf (decide (q < 0))
  else F.fin (if q < 0 then -(rnd64 q * 2 ^ pexp64 q) else rnd64 q * 2 ^ pexp64 q)

/-- binary64 addition. -/
def fadd64 : F → F → F
  | .nan _, _ => .nan false
  | _, .nan _ => .nan false
  | .inf a, .inf b => if a = b then .inf a else .nan false
  | .inf a, .fin _ => .inf a
  | .fin _, .inf b => .inf b
  | .fin x, .fin y => roundF64 (x + y)

/-- binary64 subtraction. -/
def fsub64 : F → F → F
  | .nan _, _ => .nan false
  | _, .nan _ => .nan false
  | .inf a, .inf b => if a = b then .nan false else .inf a
  | .inf a, .fin _ => .inf a
  | .fin _, .inf b => .inf (!b)
  | .fin x, .fin y => roundF64 (x - y)

/-- binary64 multiplication. -/
def fmul64 : F → F → F
  | .nan _, _ => .nan false
  | _, .nan _ => .nan false
  | .inf a, .inf b => .inf (xor a b)
  | .inf a, .fin y => if y = 0 then .nan false else .inf (xor a (decide (y < 0)))
  | .fin x, .inf b => if x = 0 then .nan false else .inf (xor (decide (x < 0)) b)
  | .fin x, .fin y => roundF64 (x * y)

/-- binary64 division. -/
def fdiv64 : F → F → F
  | .nan _, _ => .nan false
  | _, .nan _ => .nan false
  | .inf _, .inf _ => .nan false
  | .inf a, .fin y => .inf (xor a (decide (y < 0)))
  | .fin _, .inf _ => .fin 0
  | .fin x, .fin y =>
    if y = 0 then (if x = 0 then .nan false else .inf (decide (x < 0)))
    else roundF64 (x / y)

/-- The `f64` literal `0.001` of the source: the nearest double to
`1/1000` (slightly above it). -/
def lit001 : F := roundF64 (1 / 1000)

/-- `find_median` with the midpoint, the width and the tolerance all
computed in binary64, as the running program does; fuel-indexed as
before. -/
def find_median64 : ℕ → List F → F → F → Option F
  | 0, _, _, _ => none
  | fuel + 1, s, left, right =>
    if fleIEEE (fabs (fsub64 left right)) lit001 then some left
    else
      match is_median s (fdiv64 (fadd64 right left) (F.fin 2)) with
      | .lt => find_median64 fuel s left (fdiv64 (fadd64 right left) (F.fin 2))
      | .eq => find_median64 fuel s left (fdiv64 (fadd64 right left) (F.fin 2))
      | .gt => find_median64 fuel s (fdiv64 (fadd64 right left) (F.fin 2)) right

/-- One step of the `average` scan in binary64. -/
def sumLenStep64 (p : F × ℕ) (x : F) : F × ℕ :=
  (fadd64 p.1 x, p.2 + 1)

/-- `average` with binary64 accumulation and division. -/
def average64 (s : List F) : F :=
  let p := s.foldl sumLenStep64 (.fin 0, 0)
  fdiv64 p.1 (.fin (p.2 : ℚ))

/-- One step of the second `dispersion` scan in binary64. -/
def sqDevStep64 (m : F) (p : F × ℕ) (x : F) : F × ℕ :=
  (fadd64 p.1 (fmul64 (fsub64 x m) (fsub64 x m)), p.2 + 1)

/-- `dispersion` with binary64 arithmetic throughout. -/
def dispersion64 (s : List F) : F :=
  let m := average64 s
  let p := s.foldl (sqDevStep64 m) (.fin 0, 0)
  fdiv64 p.1 (.fin (p.2 : ℚ))

/-- The finite binary64 values: an integer of at most 53 bits times a
power of two on or above the subnormal grid, below the overflow
threshold. -/
def isRepr64 (q : ℚ) : Prop :=
  ∃ m p : ℤ, q = m * 2 ^ p ∧ |m| < 2 ^ 53 ∧ -1074 ≤ p ∧ |q| < (2 : ℚ) ^ (1024 : ℤ)

/-- The value of the `f64` literal `0.001`: the rounding of `1/1000`
(slightly above it). -/
def tol64 : ℚ := 4611686018427388 * (2 : ℚ) ^ (-62 : ℤ)

/-- Finite doubles of magnitude at most `2^1022`: closed under
doubling, so bisection midpoints of such seeds never overflow. -/
def isRepr22 (q : ℚ) : Prop := isRepr64 q ∧ |q| ≤ (2 : ℚ) ^ (1022 : ℤ)

/-- The double written `0.1`: the rounding of `1/10`. -/
def c01 : ℚ := 3602879701896397 * (2 : ℚ) ^ (-55 : ℤ)

/-- The binary64 mean of the stream `[0.1, 0.1, 0.1]`: two roundings
push it strictly above the common value `0.1`. -/
def mean01 : ℚ := 7205759403792795 * (2 : ℚ) ^ (-56 : ℤ)

/-- Left seed of a diverging bisection: `2^43`. -/
def lC3 : ℚ := 8796093022208

/-- Right seed of a diverging bisection: `2^43 + 2^-9`, one unit in
the last place above `2^43`. -/
def rC3 : ℚ := 8796093022208 + 1 / 512

/-- A stream whose median search diverges: its minimum is `2^43`, its
maximum `2^43 + 2^-9`, with the maximum in the majority. -/
def sC3 : List F := [F.fin lC3, F.fin rC3, F.fin rC3, F.fin rC3]

/-- The value `2^1023`: a finite double whose sum with itself
overflows. -/
def vC9 : ℚ := (2 : ℚ) ^ (1023 : ℤ)

/-! ### Evaluation lemmas for the float model on finite values. -/

@[simp] theorem fleIEEE_fin (a b : ℚ) :
    fleIEEE (F.fin a) (F.fin b) = decide (a ≤ b) := rfl

@[simp] theorem fadd_fin (a b : ℚ) : fadd (F.fin a) (F.fin b) = F.fin (a + b) := rfl

@[simp] theorem fsub_fin (a b : ℚ) : fsub (F.fin a) (F.fin b) = F.fin (a - b) := rfl

@[simp] theorem fmul_fin (a b : ℚ) : fmul (F.fin a) (F.fin b) = F.fin (a * b) := rfl

@[simp] theorem fabs_fin (a : ℚ) : fabs (F.fin a) = F.fin |a| := rfl

theorem fdiv_fin (a b : ℚ) (hb : b ≠ 0) :
    fdiv (F.fin a) (F.fin b) = F.fin (a / b) := by
  simp [fdiv, hb]

@[simp] theorem fmin_fin (a b : ℚ) : fmin (F.fin a) (F.fin b) = F.fin (min a b) := by
  simp only [fmin, fleIEEE_fin]
  by_cases h : a ≤ b <;> simp [h, min_def]

@[simp] theorem fmax_fin (a b : ℚ) : fmax (F.fin a) (F.fin b) = F.fin (max a b) := by
  simp only [fmax, fleIEEE_fin]
  by_cases h : a ≤ b <;> simp [h, max_def]

/-! ### Characterizations of the scans on streams of finite values. -/

theorem foldl_count (s : List F) : ∀ n : ℕ, s.foldl (fun n _ => n + 1) n = n + s.length := by
  induction s with
  | nil => intro n; simp
  | cons x xs ih => intro n; simp [List.foldl_cons, ih]; omega

/-- The `len` statistic counts the values of the stream. -/
theorem len_eq_length (s : List F) : len s = s.length := by
  simpa using foldl_count s 0

theorem foldl_sumLen (s : List ℚ) :
    ∀ (a : ℚ) (k : ℕ),
      (s.map F.fin).foldl sumLenStep (F.fin a, k) = (F.fin (a + s.sum), k + s.length) := by
  induction s with
  | nil => intro a k; simp
  | cons x xs ih =>
    intro a k
    have hstep : sumLenStep (F.fin a, k) (F.fin x) = (F.fin (a + x), k + 1) := by
      simp [sumLenStep]
    simp only [List.map_cons, List.foldl_cons, hstep, ih, List.sum_cons, List.length_cons,
      Prod.mk.injEq]
    exact ⟨by rw [add_assoc], by omega⟩

/-- The mean of a nonempty stream of finite values is the exact sum
divided by the count. -/
theorem average_map_fin (s : List ℚ) (hs : s ≠ []) :
    average (s.map F.fin) = F.fin (s.sum / s.length) := by
  have hlen : (s.length : ℚ) ≠ 0 := by
    exact_mod_cast fun h => hs (List.length_eq_zero.mp (by exact_mod_cast h))
  simp only [average, foldl_sumLen s 0 0, zero_add, Nat.zero_add]
  rw [fdiv_fin _ _ hlen]

theorem average_nil : average ([] : List F) = F.nan false := rfl

theorem foldl_sqDev (m : ℚ) (s : List ℚ) :
    ∀ (a : ℚ) (k : ℕ),
      (s.map F.fin).foldl (sqDevStep (F.fin m)) (F.fin a, k)
        = (F.fin (a + (s.map (fun x => (x - m) ^ 2)).sum), k + s.length) := by
  induction s with
  | nil => intro a k; simp
  | cons x xs ih =>
    intro a k
    have hstep : sqDevStep (F.fin m) (F.fin a, k) (F.fin x)
        = (F.fin (a + (x - m) ^ 2), k + 1) := by
      simp [sqDevStep, sq]
    simp only [List.map_cons, List.foldl_cons, hstep, ih, List.sum_cons, List.length_cons,
      Prod.mk.injEq]
    exact ⟨by rw [add_assoc], by omega⟩

/-- The dispersion of a nonempty stream of finite values is the exact
mean squared deviation, divided by the count `n` (not `n - 1`). -/
theorem dispersion_map_fin (s : List ℚ) (hs : s ≠ []) :
    dispersion (s.map F.fin)
      = F.fin ((s.map (fun x => (x - s.sum / s.length) ^ 2)).sum / s.length) := by
  have hlen : (s.length : ℚ) ≠ 0 := by
    exact_mod_cast fun h => hs (List.length_eq_zero.mp (by exact_mod_cast h))
  simp only [dispersion, average_map_fin s hs, foldl_sqDev, zero_add, Nat.zero_add]
  rw [fdiv_fin _ _ hlen]

theorem foldl_minMax (s : List ℚ) :
    ∀ a b : ℚ,
      (s.map F.fin).foldl minMaxStep (some (F.fin a), some (F.fin b))
        = (some (F.fin (s.foldl min a)), some (F.fin (s.foldl max b))) := by
  induction s with
  | nil => intro a b; simp
  | cons x xs ih =>
    intro a b
    have hstep : minMaxStep (some (F.fin a), some (F.fin b)) (F.fin x)
        = (some (F.fin (min a x)), some (F.fin (max b x))) := by
      simp [minMaxStep, min_comm x a, max_comm x b]
    simp only [List.map_cons, List.foldl_cons, hstep, ih]

/-- `min_max` on a nonempty stream of finite values: folds of `min`
and `max` seeded with the first value. -/
theorem min_max_map_fin (x : ℚ) (xs : List ℚ) :
    min_max ((x :: xs).map F.fin)
      = some (F.fin (xs.foldl min x), F.fin (xs.foldl max x)) := by
  have hstep : minMaxStep (none, none) (F.fin x) = (some (F.fin x), some (F.fin x)) := by
    simp [minMaxStep, fmin, fmax, fleIEEE]
  simp only [min_max, List.map_cons, List.foldl_cons, hstep, foldl_minMax]

theorem min_max_nil : min_max ([] : List F) = none := rfl

theorem foldl_min_le_start (s : List ℚ) : ∀ a : ℚ, s.foldl min a ≤ a := by
  induction s with
  | nil => intro a; simp
  | cons x xs ih =>
    intro a
    calc xs.foldl min (min a x) ≤ min a x := ih (min a x)
    _ ≤ a := min_le_left _ _

theorem foldl_min_le_mem (s : List ℚ) : ∀ (a x : ℚ), x ∈ s → s.foldl min a ≤ x := by
  induction s with
  | nil => intro a x hx; cases hx
  | cons y ys ih =>
    intro a x hx
    rcases List.mem_cons.mp hx with h | h
    · subst h
      calc ys.foldl min (min a x) ≤ min a x := foldl_min_le_start ys _
      _ ≤ x := min_le_right _ _
    · exact ih (min a y) x h

theorem foldl_min_mem (s : List ℚ) : ∀ a : ℚ, s.foldl min a = a ∨ s.foldl min a ∈ s := by
  induction s with
  | nil => intro a; left; rfl
  | cons x xs ih =>
    intro a
    rw [List.foldl_cons]
    rcases ih (min a x) with h | h
    · rw [h]
      rcases min_cases a x with ⟨hm, _⟩ | ⟨hm, _⟩
      · left; exact hm
      · right; rw [hm]; exact List.mem_cons_self x xs
    · right; exact List.mem_cons_of_mem x h

theorem le_foldl_max_start (s : List ℚ) : ∀ a : ℚ, a ≤ s.foldl max a := by
  induction s with
  | nil => intro a; simp
  | cons x xs ih =>
    intro a
    calc a ≤ max a x := le_max_left _ _
    _ ≤ xs.foldl max (max a x) := ih (max a x)

theorem mem_le_foldl_max (s : List ℚ) : ∀ (a x : ℚ), x ∈ s → x ≤ s.foldl max a := by
  induction s with
  | nil => intro a x hx; cases hx
  | cons y ys ih =>
    intro a x hx
    rcases List.mem_cons.mp hx with h | h
    · subst h
      calc x ≤ max a x := le_max_right _ _
      _ ≤ ys.foldl max (max a x) := le_foldl_max_start ys _
    · exact ih (max a y) x h

theorem foldl_max_mem (s : List ℚ) : ∀ a : ℚ, s.foldl max a = a ∨ s.foldl max a ∈ s := by
  induction s with
  | nil => intro a; left; rfl
  | cons x xs ih =>
    intro a
    rw [List.foldl_cons]
    rcases ih (max a x) with h | h
    · rw [h]
      rcases max_cases a x with ⟨hm, _⟩ | ⟨hm, _⟩
      · left; exact hm
      · right; rw [hm]; exact List.mem_cons_self x xs
    · right; exact List.mem_cons_of_mem x h

/-! ### The bisection search on finite seeds: one step, stopping,
termination and interval containment. -/

/-- With finite seeds the recursion stops at once when the interval
width is within the `0.001` tolerance, returning `left`. -/
theorem find_median_fuel_stop (n : ℕ) (s : List F) (l r : ℚ)
    (h : |l - r| ≤ 1 / 1000) :
    find_median_fuel (n + 1) s (F.fin l) (F.fin r) = some (F.fin l) := by
  have hc : fleIEEE (fabs (fsub (F.fin l) (F.fin r))) (F.fin (1 / 1000)) = true := by
    simp only [fsub_fin, fabs_fin, fleIEEE_fin, decide_eq_true_eq]
    exact h
  simp only [find_median_fuel, hc, if_true]

/-- With finite seeds, one non-stopping step recurses on the half
interval chosen by `is_median`. -/
theorem find_median_fuel_step (n : ℕ) (s : List F) (l r : ℚ)
    (h : ¬ |l - r| ≤ 1 / 1000) :
    find_median_fuel (n + 1) s (F.fin l) (F.fin r)
      = match is_median s (F.fin ((r + l) / 2)) with
        | .lt => find_median_fuel n s (F.fin l) (F.fin ((r + l) / 2))
        | .eq => find_median_fuel n s (F.fin l) (F.fin ((r + l) / 2))
        | .gt => find_median_fuel n s (F.fin ((r + l) / 2)) (F.fin r) := by
  have hmid : fdiv (fadd (F.fin r) (F.fin l)) (F.fin 2) = F.fin ((r + l) / 2) := by
    rw [fadd_fin, fdiv_fin _ _ (by norm_num)]
  simp only [find_median_fuel, fsub_fin, fabs_fin, fleIEEE_fin, decide_eq_true_eq, hmid]
  rw [if_neg h]

/-- Each bisection step halves the width of a finite interval, so fuel
logarithmic in width over tolerance makes the recursion finish. -/
theorem find_median_fuel_isSome (n : ℕ) :
    ∀ (s : List F) (l r : ℚ), 1000 * |l - r| ≤ 2 ^ n →
      (find_median_fuel (n + 1) s (F.fin l) (F.fin r)).isSome = true := by
  induction n with
  | zero =>
    intro s l r hw
    rw [find_median_fuel_stop 0 s l r (by simpa using by linarith [hw])]
    rfl
  | succ n ih =>
    intro s l r hw
    by_cases hst : |l - r| ≤ 1 / 1000
    · rw [find_median_fuel_stop _ s l r hst]; rfl
    · rw [find_median_fuel_step _ s l r hst]
      have hleft : 1000 * |l - (r + l) / 2| ≤ 2 ^ n := by
        have : l - (r + l) / 2 = (l - r) / 2 := by ring
        rw [this, abs_div]
        have h2 : |(2 : ℚ)| = 2 := by norm_num
        rw [h2]
        have := hw
        rw [pow_succ] at this
        linarith
      have hright : 1000 * |(r + l) / 2 - r| ≤ 2 ^ n := by
        have : (r + l) / 2 - r = (l - r) / 2 := by ring
        rw [this, abs_div]
        have h2 : |(2 : ℚ)| = 2 := by norm_num
        rw [h2]
        have := hw
        rw [pow_succ] at this
        linarith
      cases is_median s (F.fin ((r + l) / 2)) with
      | lt => exact ih s l ((r + l) / 2) hleft
      | eq => exact ih s l ((r + l) / 2) hleft
      | gt => exact ih s ((r + l) / 2) r hright

/-- Some fuel always suffices for finite seeds. -/
theorem find_median_fuel_terminates (s : List F) (l r : ℚ) :
    ∃ n, (find_median_fuel n s (F.fin l) (F.fin r)).isSome = true := by
  obtain ⟨n, hn⟩ := pow_unbounded_of_one_lt (1000 * |l - r|) (by norm_num : (1 : ℚ) < 2)
  exact ⟨n + 1, find_median_fuel_isSome n s l r hn.le⟩

/-- Whatever the stream, the estimate the search returns for finite
seeds `l <= r` is a finite value inside `[l, r]`. -/
theorem find_median_fuel_bounds (n : ℕ) :
    ∀ (s : List F) (l r : ℚ) (m : F), l ≤ r →
      find_median_fuel n s (F.fin l) (F.fin r) = some m →
      ∃ q, m = F.fin q ∧ l ≤ q ∧ q ≤ r := by
  induction n with
  | zero => intro s l r m _ h; cases h
  | succ n ih =>
    intro s l r m hlr h
    by_cases hst : |l - r| ≤ 1 / 1000
    · rw [find_median_fuel_stop n s l r hst] at h
      exact ⟨l, (Option.some.injEq _ _ ▸ h).symm, le_refl l, hlr⟩
    · rw [find_median_fuel_step n s l r hst] at h
      have hmid_lo : l ≤ (r + l) / 2 := by linarith
      have hmid_hi : (r + l) / 2 ≤ r := by linarith
      cases hcl : is_median s (F.fin ((r + l) / 2)) with
      | lt =>
        rw [hcl] at h
        obtain ⟨q, hm, h1, h2⟩ := ih s l ((r + l) / 2) m hmid_lo h
        exact ⟨q, hm, h1, le_trans h2 hmid_hi⟩
      | eq =>
        rw [hcl] at h
        obtain ⟨q, hm, h1, h2⟩ := ih s l ((r + l) / 2) m hmid_lo h
        exact ⟨q, hm, h1, le_trans h2 hmid_hi⟩
      | gt =>
        rw [hcl] at h
        obtain ⟨q, hm, h1, h2⟩ := ih s ((r + l) / 2) r m hmid_hi h
        exact ⟨q, hm, le_trans hmid_lo h1, h2⟩

/-! ### Bounds on the mean. -/

theorem len_mul_le_sum (s : List ℚ) (c : ℚ) (h : ∀ x ∈ s, c ≤ x) :
    (s.length : ℚ) * c ≤ s.sum := by
  induction s with
  | nil => simp
  | cons x xs ih =>
    have hx : c ≤ x := h x (List.mem_cons_self x xs)
    have hxs : (xs.length : ℚ) * c ≤ xs.sum :=
      ih (fun y hy => h y (List.mem_cons_of_mem x hy))
    simp only [List.length_cons, List.sum_cons]
    push_cast
    linarith

theorem sum_le_len_mul (s : List ℚ) (c : ℚ) (h : ∀ x ∈ s, x ≤ c) :
    s.sum ≤ (s.length : ℚ) * c := by
  induction s with
  | nil => simp
  | cons x xs ih =>
    have hx : x ≤ c := h x (List.mem_cons_self x xs)
    have hxs : xs.sum ≤ (xs.length : ℚ) * c :=
      ih (fun y hy => h y (List.mem_cons_of_mem x hy))
    simp only [List.length_cons, List.sum_cons]
    push_cast
    linarith

/-! ### Correctness of the binary64 rounding. -/

theorem two_zpow_pos (n : ℤ) : (0 : ℚ) < 2 ^ n := zpow_pos (by norm_num) n

theorem two_zpow_lt_two_zpow {m n : ℤ} (h : (2 : ℚ) ^ m < 2 ^ n) : m < n :=
  (zpow_lt_zpow_iff_right₀ (by norm_num : (1 : ℚ) < 2)).mp h

theorem two_zpow_le_two_zpow {m n : ℤ} (h : m ≤ n) : (2 : ℚ) ^ m ≤ 2 ^ n :=
  (zpow_le_zpow_iff_right₀ (by norm_num : (1 : ℚ) < 2)).mpr h

theorem binade_aux (a b : ℕ) (ha : a ≠ 0) (hb : b ≠ 0) :
    (2 : ℚ) ^ ((Nat.log2 a : ℤ) - (Nat.log2 b : ℤ) - 1) < (a : ℚ) / b
      ∧ (a : ℚ) / b < 2 ^ ((Nat.log2 a : ℤ) - (Nat.log2 b : ℤ) + 1) := by
  have hbq : (0 : ℚ) < (b : ℚ) := by positivity
  have haq : (0 : ℚ) < (a : ℚ) := by
    have : 0 < a := Nat.pos_of_ne_zero ha
    positivity
  have ha1 : ((2 : ℚ)) ^ ((Nat.log2 a : ℤ)) ≤ (a : ℚ) := by
    rw [zpow_natCast]
    exact_mod_cast Nat.log2_self_le ha
  have ha2 : ((a : ℚ)) < 2 ^ ((Nat.log2 a : ℤ) + 1) := by
    rw [show (Nat.log2 a : ℤ) + 1 = ((Nat.log2 a + 1 : ℕ) : ℤ) by push_cast; ring, zpow_natCast]
    exact_mod_cast Nat.lt_log2_self
  have hb1 : ((2 : ℚ)) ^ ((Nat.log2 b : ℤ)) ≤ (b : ℚ) := by
    rw [zpow_natCast]
    exact_mod_cast Nat.log2_self_le hb
  have hb2 : ((b : ℚ)) < 2 ^ ((Nat.log2 b : ℤ) + 1) := by
    rw [show (Nat.log2 b : ℤ) + 1 = ((Nat.log2 b + 1 : ℕ) : ℤ) by push_cast; ring, zpow_natCast]
    exact_mod_cast Nat.lt_log2_self
  constructor
  · rw [show (Nat.log2 a : ℤ) - (Nat.log2 b : ℤ) - 1
      = (Nat.log2 a : ℤ) - ((Nat.log2 b : ℤ) + 1) by ring,
      zpow_sub₀ (by norm_num : (2 : ℚ) ≠ 0), div_lt_div_iff₀ (two_zpow_pos _) hbq]
    calc (2 : ℚ) ^ ((Nat.log2 a : ℤ)) * (b : ℚ)
        < 2 ^ ((Nat.log2 a : ℤ)) * 2 ^ ((Nat.log2 b : ℤ) + 1) :=
          mul_lt_mul_of_pos_left hb2 (two_zpow_pos _)
    _ ≤ (a : ℚ) * 2 ^ ((Nat.log2 b : ℤ) + 1) :=
          mul_le_mul_of_nonneg_right ha1 (two_zpow_pos _).le
  · rw [show (Nat.log2 a : ℤ) - (Nat.log2 b : ℤ) + 1
      = ((Nat.log2 a : ℤ) + 1) - (Nat.log2 b : ℤ) by ring,
      zpow_sub₀ (by norm_num : (2 : ℚ) ≠ 0), div_lt_div_iff₀ hbq (two_zpow_pos _)]
    calc (a : ℚ) * 2 ^ ((Nat.log2 b : ℤ))
        ≤ (a : ℚ) * (b : ℚ) := mul_le_mul_of_nonneg_left hb1 haq.le
    _ < 2 ^ ((Nat.log2 a : ℤ) + 1) * (b : ℚ) := mul_lt_mul_of_pos_right ha2 hbq

theorem qexp_spec (q : ℚ) (hq : 0 < q) :
    (2 : ℚ) ^ qexp q ≤ q ∧ q < 2 ^ (qexp q + 1) := by
  have hnum : 0 < q.num := Rat.num_pos.mpr hq
  have ha0 : q.num.toNat ≠ 0 := by omega
  have hb0 : q.den ≠ 0 := q.den_nz
  have hqa : ((q.num.toNat : ℕ) : ℚ) = (q.num : ℚ) := by
    exact_mod_cast congrArg (fun z : ℤ => (z : ℚ)) (Int.toNat_of_nonneg hnum.le)
  have hq_eq : q = (q.num.toNat : ℚ) / (q.den : ℚ) := by
    rw [hqa, Rat.num_div_den]
  have key1 := (binade_aux q.num.toNat q.den ha0 hb0).1
  have key2 := (binade_aux q.num.toNat q.den ha0 hb0).2
  rw [← hq_eq] at key1 key2
  unfold qexp
  split_ifs with hc
  · exact ⟨hc, key2⟩
  · constructor
    · exact le_of_lt key1
    · rw [show (Nat.log2 q.num.toNat : ℤ) - (Nat.log2 q.den : ℤ) - 1 + 1
        = (Nat.log2 q.num.toNat : ℤ) - (Nat.log2 q.den : ℤ) by ring]
      exact lt_of_not_le hc

theorem qexp_unique (q : ℚ) (e : ℤ) (hq : 0 < q) (h1 : (2 : ℚ) ^ e ≤ q)
    (h2 : q < 2 ^ (e + 1)) : qexp q = e := by
  obtain ⟨g1, g2⟩ := qexp_spec q hq
  by_contra hne
  rcases lt_or_gt_of_ne hne with h | h
  · exact absurd (lt_of_lt_of_le (lt_of_lt_of_le g2 (two_zpow_le_two_zpow (by omega))) h1)
      (lt_irrefl q)
  · exact absurd (lt_of_lt_of_le (lt_of_lt_of_le h2 (two_zpow_le_two_zpow (by omega))) g1)
      (lt_irrefl q)

/-- Locating a positive value between two adjacent grid points of its
binade determines the grid exponent and the floor index. -/
theorem pexp64_flo64_eq (q : ℚ) (k t : ℤ) (hk1 : 2 ^ 52 ≤ k) (hk2 : k < 2 ^ 53)
    (ht : -1074 ≤ t) (hq1 : (k : ℚ) * 2 ^ t ≤ q) (hq2 : q < ((k : ℚ) + 1) * 2 ^ t) :
    0 < q ∧ pexp64 q = t ∧ flo64 q = k := by
  have hkq : (0 : ℚ) < (k : ℚ) := by exact_mod_cast lt_of_lt_of_le (by norm_num) hk1
  have hq0 : 0 < q := lt_of_lt_of_le (mul_pos hkq (two_zpow_pos t)) hq1
  have habs : |q| = q := abs_of_pos hq0
  have hk53 : ((k : ℚ) + 1) ≤ 2 ^ (53 : ℤ) := by
    rw [show ((2 : ℚ) ^ (53 : ℤ)) = ((2 ^ 53 : ℤ) : ℚ) by push_cast; norm_num]
    exact_mod_cast hk2
  have hk52 : (2 : ℚ) ^ (52 : ℤ) ≤ (k : ℚ) := by
    rw [show ((2 : ℚ) ^ (52 : ℤ)) = ((2 ^ 52 : ℤ) : ℚ) by push_cast; norm_num]
    exact_mod_cast hk1
  have he : qexp q = t + 52 := by
    apply qexp_unique q _ hq0
    · calc (2 : ℚ) ^ (t + 52)
          = 2 ^ (52 : ℤ) * 2 ^ t := by
            rw [← zpow_add₀ (by norm_num : (2 : ℚ) ≠ 0)]; ring_nf
      _ ≤ (k : ℚ) * 2 ^ t := mul_le_mul_of_nonneg_right hk52 (two_zpow_pos t).le
      _ ≤ q := hq1
    · calc q < ((k : ℚ) + 1) * 2 ^ t := hq2
      _ ≤ 2 ^ (53 : ℤ) * 2 ^ t := mul_le_mul_of_nonneg_right hk53 (two_zpow_pos t).le
      _ = 2 ^ (t + 52 + 1) := by
            rw [← zpow_add₀ (by norm_num : (2 : ℚ) ≠ 0)]; ring_nf
  have hp : pexp64 q = t := by
    rw [pexp64, habs, he, show t + 52 - 52 = t by ring, max_eq_left ht]
  refine ⟨hq0, hp, ?_⟩
  rw [flo64, habs, hp, Int.floor_eq_iff]
  constructor
  · rw [le_div_iff₀ (two_zpow_pos t)]; exact hq1
  · rw [div_lt_iff₀ (two_zpow_pos t)]; exact hq2

/-- Rounding down: the value sits in the lower half of its grid gap. -/
theorem roundF64_down (q : ℚ) (k t : ℤ) (hk1 : 2 ^ 52 ≤ k) (hk2 : k < 2 ^ 53)
    (ht : -1074 ≤ t) (hq1 : (k : ℚ) * 2 ^ t ≤ q) (hq2 : q < ((k : ℚ) + 1) * 2 ^ t)
    (hfr : q - (k : ℚ) * 2 ^ t < 2 ^ t / 2)
    (hcap : (k : ℚ) * 2 ^ t < 2 ^ (1024 : ℤ)) :
    roundF64 q = F.fin ((k : ℚ) * 2 ^ t) := by
  obtain ⟨hq0, hp, hf⟩ := pexp64_flo64_eq q k t hk1 hk2 ht hq1 hq2
  have habs : |q| = q := abs_of_pos hq0
  have h2t := two_zpow_pos t
  have hcond : |q| / 2 ^ pexp64 q - (flo64 q : ℚ) < 1 / 2 := by
    rw [habs, hp, hf, sub_lt_iff_lt_add, div_lt_iff₀ h2t,
      show ((1 : ℚ) / 2 + k) * 2 ^ t = 2 ^ t / 2 + k * 2 ^ t by ring]
    linarith
  have hrnd : rnd64 q = k := by rw [rnd64, if_pos hcond, hf]
  rw [roundF64, if_neg hq0.ne', hrnd, hp, if_neg (not_le.mpr hcap),
    if_neg (not_lt.mpr hq0.le)]

/-- Rounding up: the value sits in the upper half of its grid gap. -/
theorem roundF64_up (q : ℚ) (k t : ℤ) (hk1 : 2 ^ 52 ≤ k) (hk2 : k < 2 ^ 53)
    (ht : -1074 ≤ t) (hq1 : (k : ℚ) * 2 ^ t ≤ q) (hq2 : q < ((k : ℚ) + 1) * 2 ^ t)
    (hfr : 2 ^ t / 2 < q - (k : ℚ) * 2 ^ t)
    (hcap : ((k : ℚ) + 1) * 2 ^ t < 2 ^ (1024 : ℤ)) :
    roundF64 q = F.fin (((k : ℚ) + 1) * 2 ^ t) := by
  obtain ⟨hq0, hp, hf⟩ := pexp64_flo64_eq q k t hk1 hk2 ht hq1 hq2
  have habs : |q| = q := abs_of_pos hq0
  have h2t := two_zpow_pos t
  have hcond1 : ¬ (|q| / 2 ^ pexp64 q - (flo64 q : ℚ) < 1 / 2) := by
    rw [habs, hp, hf, not_lt, le_sub_iff_add_le, le_div_iff₀ h2t,
      show ((1 : ℚ) / 2 + k) * 2 ^ t = 2 ^ t / 2 + k * 2 ^ t by ring]
    linarith
  have hcond2 : 1 / 2 < |q| / 2 ^ pexp64 q - (flo64 q : ℚ) := by
    rw [habs, hp, hf, lt_sub_iff_add_lt, lt_div_iff₀ h2t,
      show ((1 : ℚ) / 2 + k) * 2 ^ t = 2 ^ t / 2 + k * 2 ^ t by ring]
    linarith
  have hrnd : rnd64 q = k + 1 := by rw [rnd64, if_neg hcond1, if_pos hcond2, hf]
  rw [roundF64, if_neg hq0.ne', hrnd, hp,
    if_neg (not_le.mpr (by push_cast; exact hcap)),
    if_neg (not_lt.mpr hq0.le)]
  push_cast
  ring_nf

/-- Rounding a tie at an even grid index keeps the lower point. -/
theorem roundF64_tie_even (q : ℚ) (k t : ℤ) (hk1 : 2 ^ 52 ≤ k) (hk2 : k < 2 ^ 53)
    (ht : -1074 ≤ t) (hq1 : (k : ℚ) * 2 ^ t ≤ q) (hq2 : q < ((k : ℚ) + 1) * 2 ^ t)
    (hfr : q - (k : ℚ) * 2 ^ t = 2 ^ t / 2) (hev : k % 2 = 0)
    (hcap : (k : ℚ) * 2 ^ t < 2 ^ (1024 : ℤ)) :
    roundF64 q = F.fin ((k : ℚ) * 2 ^ t) := by
  obtain ⟨hq0, hp, hf⟩ := pexp64_flo64_eq q k t hk1 hk2 ht hq1 hq2
  have habs : |q| = q := abs_of_pos hq0
  have h2t := two_zpow_pos t
  have hhalf : |q| / 2 ^ pexp64 q - (flo64 q : ℚ) = 1 / 2 := by
    rw [habs, hp, hf, sub_eq_iff_eq_add, div_eq_iff h2t.ne',
      show ((1 : ℚ) / 2 + k) * 2 ^ t = 2 ^ t / 2 + k * 2 ^ t by ring]
    linarith
  have hrnd : rnd64 q = k := by
    rw [rnd64, if_neg (by rw [hhalf]; norm_num), if_neg (by rw [hhalf]; norm_num), hf,
      if_pos hev]
  rw [roundF64, if_neg hq0.ne', hrnd, hp, if_neg (not_le.mpr hcap),
    if_neg (not_lt.mpr hq0.le)]

/-- Rounding a tie at an odd grid index moves to the upper point. -/
theorem roundF64_tie_odd (q : ℚ) (k t : ℤ) (hk1 : 2 ^ 52 ≤ k) (hk2 : k < 2 ^ 53)
    (ht : -1074 ≤ t) (hq1 : (k : ℚ) * 2 ^ t ≤ q) (hq2 : q < ((k : ℚ) + 1) * 2 ^ t)
    (hfr : q - (k : ℚ) * 2 ^ t = 2 ^ t / 2) (hodd : ¬ k % 2 = 0)
    (hcap : ((k : ℚ) + 1) * 2 ^ t < 2 ^ (1024 : ℤ)) :
    roundF64 q = F.fin (((k : ℚ) + 1) * 2 ^ t) := by
  obtain ⟨hq0, hp, hf⟩ := pexp64_flo64_eq q k t hk1 hk2 ht hq1 hq2
  have habs : |q| = q := abs_of_pos hq0
  have h2t := two_zpow_pos t
  have hhalf : |q| / 2 ^ pexp64 q - (flo64 q : ℚ) = 1 / 2 := by
    rw [habs, hp, hf, sub_eq_iff_eq_add, div_eq_iff h2t.ne',
      show ((1 : ℚ) / 2 + k) * 2 ^ t = 2 ^ t / 2 + k * 2 ^ t by ring]
    linarith
  have hrnd : rnd64 q = k + 1 := by
    rw [rnd64, if_neg (by rw [hhalf]; norm_num), if_neg (by rw [hhalf]; norm_num), hf,
      if_neg hodd]
  rw [roundF64, if_neg hq0.ne', hrnd, hp,
    if_neg (not_le.mpr (by push_cast; exact hcap)),
    if_neg (not_lt.mpr hq0.le)]
  push_cast
  ring_nf

/-- Rounding an exact grid value at or above the overflow threshold
gives positive infinity. -/
theorem roundF64_inf (q : ℚ) (k t : ℤ) (hk1 : 2 ^ 52 ≤ k) (hk2 : k < 2 ^ 53)
    (ht : -1074 ≤ t) (hq1 : (k : ℚ) * 2 ^ t ≤ q) (hq2 : q < ((k : ℚ) + 1) * 2 ^ t)
    (hfr : q - (k : ℚ) * 2 ^ t < 2 ^ t / 2)
    (hcap : (2 : ℚ) ^ (1024 : ℤ) ≤ (k : ℚ) * 2 ^ t) :
    roundF64 q = F.inf false := by
  obtain ⟨hq0, hp, hf⟩ := pexp64_flo64_eq q k t hk1 hk2 ht hq1 hq2
  have habs : |q| = q := abs_of_pos hq0
  have h2t := two_zpow_pos t
  have hcond : |q| / 2 ^ pexp64 q - (flo64 q : ℚ) < 1 / 2 := by
    rw [habs, hp, hf, sub_lt_iff_lt_add, div_lt_iff₀ h2t,
      show ((1 : ℚ) / 2 + k) * 2 ^ t = 2 ^ t / 2 + k * 2 ^ t by ring]
    linarith
  have hrnd : rnd64 q = k := by rw [rnd64, if_pos hcond, hf]
  rw [roundF64, if_neg hq0.ne', hrnd, hp, if_pos hcap,
    decide_eq_false (not_lt.mpr hq0.le)]

/-- Rounding commutes with negation (the sign bit is independent of
the significand). -/
theorem roundF64_neg (q : ℚ) : roundF64 (-q) = fnegF (roundF64 q) := by
  by_cases hq : q = 0
  · subst hq
    simp [roundF64, fnegF]
  · have h1 : pexp64 (-q) = pexp64 q := by rw [pexp64, pexp64, abs_neg]
    have h2 : flo64 (-q) = flo64 q := by rw [flo64, flo64, abs_neg, h1]
    have h3 : rnd64 (-q) = rnd64 q := by rw [rnd64, rnd64, abs_neg, h1, h2]
    rw [roundF64, roundF64, if_neg (neg_ne_zero.mpr hq), if_neg hq, h1, h3]
    by_cases hov : (2 : ℚ) ^ (1024 : ℤ) ≤ (rnd64 q : ℚ) * 2 ^ pexp64 q
    · rw [if_pos hov, if_pos hov]
      rcases lt_or_gt_of_ne hq with h | h
      · rw [decide_eq_false (by linarith : ¬ -q < 0), decide_eq_true h]
        rfl
      · rw [decide_eq_true (by linarith : -q < 0), decide_eq_false (not_lt.mpr h.le)]
        rfl
    · rw [if_neg hov, if_neg hov]
      rcases lt_or_gt_of_ne hq with h | h
      · rw [if_neg (by linarith : ¬ -q < 0), if_pos h, fnegF, neg_neg]
      · rw [if_pos (by linarith : -q < 0), if_neg (not_lt.mpr h.le), fnegF]

/-- Rounding a non-negative rational yields a non-negative double or
positive infinity, never NaN. -/
theorem roundF64_nonneg (q : ℚ) (hq : 0 ≤ q) :
    roundF64 q = F.inf false ∨ ∃ v, roundF64 q = F.fin v ∧ 0 ≤ v := by
  rcases eq_or_lt_of_le hq with h | h
  · right
    refine ⟨0, ?_, le_refl 0⟩
    rw [← h, roundF64, if_pos rfl]
  · have hfl : 0 ≤ flo64 q := by
      rw [flo64]
      apply Int.floor_nonneg.mpr
      positivity
    have hrnd : 0 ≤ rnd64 q := by rw [rnd64]; split_ifs <;> omega
    have hval : (0 : ℚ) ≤ (rnd64 q : ℚ) * 2 ^ pexp64 q :=
      mul_nonneg (by exact_mod_cast hrnd) (two_zpow_pos _).le
    rw [roundF64, if_neg h.ne']
    by_cases hov : (2 : ℚ) ^ (1024 : ℤ) ≤ (rnd64 q : ℚ) * 2 ^ pexp64 q
    · left
      rw [if_pos hov, decide_eq_false (not_lt.mpr h.le)]
    · right
      refine ⟨(rnd64 q : ℚ) * 2 ^ pexp64 q, ?_, hval⟩
      rw [if_neg hov, if_neg (not_lt.mpr h.le)]

/-- Rounding never yields NaN. -/
theorem roundF64_shape (q : ℚ) :
    (∃ s, roundF64 q = F.inf s) ∨ ∃ v, roundF64 q = F.fin v := by
  rw [roundF64]
  split_ifs
  · right; exact ⟨0, rfl⟩
  · left; exact ⟨_, rfl⟩
  · right; exact ⟨_, rfl⟩
  · right; exact ⟨_, rfl⟩

theorem isRepr64_neg {q : ℚ} (h : isRepr64 q) : isRepr64 (-q) := by
  obtain ⟨m, p, h1, h2, h3, h4⟩ := h
  exact ⟨-m, p, by rw [h1]; push_cast; ring, by rw [abs_neg]; exact h2, h3,
    by rw [abs_neg]; exact h4⟩

theorem isRepr64_zero : isRepr64 0 :=
  ⟨0, 0, by norm_num, by norm_num, by norm_num, by rw [abs_zero]; exact two_zpow_pos _⟩

/-- A representable value no smaller than the binade floor of a grid
exponent is an integer multiple of that grid. -/
theorem repr_grid (x : ℚ) (hx : isRepr64 x) (p : ℤ)
    (hcase : p ≤ -1074 ∨ (2 : ℚ) ^ (p + 52) ≤ |x|) :
    ∃ k : ℤ, x = k * 2 ^ p := by
  obtain ⟨m, px, hxe, hmb, hpx, _⟩ := hx
  have hge : p ≤ px := by
    rcases hcase with h | h
    · omega
    · by_contra hcon
      push_neg at hcon
      have h1 : |x| = |(m : ℚ)| * 2 ^ px := by
        rw [hxe, abs_mul, abs_of_pos (two_zpow_pos px)]
      have hm53 : |(m : ℚ)| < 2 ^ (53 : ℤ) := by
        rw [show ((2 : ℚ) ^ (53 : ℤ)) = ((2 ^ 53 : ℤ) : ℚ) by push_cast; norm_num,
          show |(m : ℚ)| = ((|m| : ℤ) : ℚ) by push_cast; ring]
        exact_mod_cast hmb
      have h2 : |x| < 2 ^ (53 + px) := by
        rw [h1, zpow_add₀ (by norm_num : (2 : ℚ) ≠ 0)]
        exact mul_lt_mul_of_pos_right hm53 (two_zpow_pos px)
      have := two_zpow_lt_two_zpow (lt_of_le_of_lt h h2)
      omega
  refine ⟨m * 2 ^ (px - p).toNat, ?_⟩
  have hsplit : ((2 : ℚ)) ^ px = (2 : ℚ) ^ ((px - p).toNat : ℤ) * 2 ^ p := by
    rw [← zpow_add₀ (by norm_num : (2 : ℚ) ≠ 0)]
    congr 1
    omega
  rw [hxe, hsplit, zpow_natCast]
  push_cast
  ring

/-- The central rounding fact: a positive value between two
representable bounds rounds to a representable value between the same
bounds. -/
theorem roundF64_between_pos (l r m : ℚ) (hl : isRepr64 l) (hr : isRepr64 r)
    (hm : 0 < m) (hlm : l ≤ m) (hmr : m ≤ r) :
    ∃ v, roundF64 m = F.fin v ∧ l ≤ v ∧ v ≤ r ∧ isRepr64 v := by
  have hr_cap : |r| < (2 : ℚ) ^ (1024 : ℤ) := by
    obtain ⟨-, -, -, -, -, h⟩ := hr
    exact h
  have habs : |m| = m := abs_of_pos hm
  have he := qexp_spec m hm
  have hp_def : pexp64 m = max (qexp m - 52) (-1074) := by rw [pexp64, habs]
  have hp_ge : -1074 ≤ pexp64 m := hp_def ▸ le_max_right _ _
  have hp_ge2 : qexp m - 52 ≤ pexp64 m := hp_def ▸ le_max_left _ _
  have h2p := two_zpow_pos (pexp64 m)
  have hfl_le : (flo64 m : ℚ) * 2 ^ pexp64 m ≤ m := by
    rw [← le_div_iff₀ h2p, flo64, habs]
    exact Int.floor_le _
  have hfl_lt : m < ((flo64 m : ℚ) + 1) * 2 ^ pexp64 m := by
    rw [← div_lt_iff₀ h2p, flo64, habs]
    exact Int.lt_floor_add_one _
  have hfl_nonneg : 0 ≤ flo64 m := by
    rw [flo64]
    apply Int.floor_nonneg.mpr
    positivity
  have hrc : rnd64 m = flo64 m ∨ rnd64 m = flo64 m + 1 := by
    rw [rnd64]
    split_ifs <;> simp
  have hrc_exact : m = (flo64 m : ℚ) * 2 ^ pexp64 m → rnd64 m = flo64 m := by
    intro hex
    have hz : |m| / 2 ^ pexp64 m - (flo64 m : ℚ) = 0 := by
      rw [habs, sub_eq_zero, div_eq_iff h2p.ne']
      exact hex
    rw [rnd64, if_pos (by rw [hz]; norm_num)]
  have hcase_p : pexp64 m = -1074 ∨ pexp64 m = qexp m - 52 := by
    rcases max_cases (qexp m - 52) (-1074) with ⟨h1, h2⟩ | ⟨h1, h2⟩
    · right; rw [hp_def, h1]
    · left; rw [hp_def, h1]
  have hbinade : pexp64 m = -1074 ∨ (2 : ℚ) ^ (pexp64 m + 52) ≤ m := by
    rcases hcase_p with h | h
    · left; exact h
    · right
      rw [h, show qexp m - 52 + 52 = qexp m by ring]
      exact he.1
  have hpow_cast : ((2 ^ 52 : ℤ) : ℚ) = (2 : ℚ) ^ (52 : ℤ) := by push_cast; norm_num
  have hfl_lower :
      pexp64 m = -1074 ∨ (2 : ℚ) ^ (pexp64 m + 52) ≤ (flo64 m : ℚ) * 2 ^ pexp64 m := by
    rcases hbinade with h | h
    · left; exact h
    · right
      have h52 : (2 ^ 52 : ℤ) ≤ flo64 m := by
        rw [flo64, habs, Int.le_floor, le_div_iff₀ h2p]
        calc ((2 ^ 52 : ℤ) : ℚ) * 2 ^ pexp64 m
            = 2 ^ (pexp64 m + 52) := by
              rw [hpow_cast, ← zpow_add₀ (by norm_num : (2 : ℚ) ≠ 0)]
              ring_nf
        _ ≤ m := h
      calc (2 : ℚ) ^ (pexp64 m + 52)
          = (2 : ℚ) ^ (52 : ℤ) * 2 ^ pexp64 m := by
            rw [← zpow_add₀ (by norm_num : (2 : ℚ) ≠ 0)]
            ring_nf
      _ ≤ (flo64 m : ℚ) * 2 ^ pexp64 m := by
            apply mul_le_mul_of_nonneg_right _ h2p.le
            rw [← hpow_cast]
            exact_mod_cast h52
  have hval_le_r : (rnd64 m : ℚ) * 2 ^ pexp64 m ≤ r := by
    rcases hrc with h | h
    · rw [h]
      exact le_trans hfl_le hmr
    · rw [h]
      by_contra hcon
      push_neg at hcon
      have hrg : ∃ k : ℤ, r = k * 2 ^ pexp64 m := by
        apply repr_grid r hr
        rcases hbinade with hb | hb
        · left; omega
        · right
          have hr_pos : 0 < r := lt_of_lt_of_le hm hmr
          rw [abs_of_pos hr_pos]
          exact le_trans hb hmr
      obtain ⟨k, hk⟩ := hrg
      have hmr2 : m ≤ (k : ℚ) * 2 ^ pexp64 m := by rw [← hk]; exact hmr
      have hcon2 : (k : ℚ) * 2 ^ pexp64 m < ((flo64 m : ℚ) + 1) * 2 ^ pexp64 m := by
        rw [← hk]
        calc r < ((flo64 m + 1 : ℤ) : ℚ) * 2 ^ pexp64 m := hcon
        _ = ((flo64 m : ℚ) + 1) * 2 ^ pexp64 m := by push_cast; ring
      have h1 : (flo64 m : ℚ) ≤ (k : ℚ) :=
        le_of_mul_le_mul_right (le_trans hfl_le hmr2) h2p
      have h2 : (k : ℚ) < (flo64 m : ℚ) + 1 := lt_of_mul_lt_mul_right hcon2 h2p.le
      have i1 : flo64 m ≤ k := by exact_mod_cast h1
      have i2 : k < flo64 m + 1 := by exact_mod_cast h2
      have hkfl : k = flo64 m := by omega
      have hm_eq : m = (flo64 m : ℚ) * 2 ^ pexp64 m := by
        apply le_antisymm _ hfl_le
        calc m ≤ (k : ℚ) * 2 ^ pexp64 m := hmr2
        _ = (flo64 m : ℚ) * 2 ^ pexp64 m := by rw [hkfl]
      have := hrc_exact hm_eq
      omega
  have hl_le_val : l ≤ (rnd64 m : ℚ) * 2 ^ pexp64 m := by
    rcases hrc with h | h
    · rw [h]
      by_contra hcon
      push_neg at hcon
      have hlg : ∃ k : ℤ, l = k * 2 ^ pexp64 m := by
        apply repr_grid l hl
        rcases hfl_lower with hb | hb
        · left; omega
        · right
          have hbl : (2 : ℚ) ^ (pexp64 m + 52) < l := lt_of_le_of_lt hb hcon
          rw [abs_of_pos (lt_trans (two_zpow_pos _) hbl)]
          exact hbl.le
      obtain ⟨k, hk⟩ := hlg
      have h1 : (flo64 m : ℚ) < (k : ℚ) := by
        apply lt_of_mul_lt_mul_right _ h2p.le
        rw [← hk]
        exact hcon
      have h2 : (k : ℚ) < (flo64 m : ℚ) + 1 := by
        apply lt_of_mul_lt_mul_right _ h2p.le
        rw [← hk]
        exact lt_of_le_of_lt hlm hfl_lt
      have i1 : flo64 m < k := by exact_mod_cast h1
      have i2 : k < flo64 m + 1 := by exact_mod_cast h2
      omega
    · rw [h]
      calc l ≤ m := hlm
      _ ≤ ((flo64 m : ℚ) + 1) * 2 ^ pexp64 m := hfl_lt.le
      _ = ((flo64 m + 1 : ℤ) : ℚ) * 2 ^ pexp64 m := by push_cast; ring
  have hrnd_nonneg : 0 ≤ rnd64 m := by rcases hrc with h | h <;> omega
  have hval_nonneg : (0 : ℚ) ≤ (rnd64 m : ℚ) * 2 ^ pexp64 m :=
    mul_nonneg (by exact_mod_cast hrnd_nonneg) h2p.le
  have hcapv : |(rnd64 m : ℚ) * 2 ^ pexp64 m| < 2 ^ (1024 : ℤ) := by
    rw [abs_of_nonneg hval_nonneg]
    exact lt_of_le_of_lt (le_trans hval_le_r (le_abs_self r)) hr_cap
  have hov : ¬ (2 : ℚ) ^ (1024 : ℤ) ≤ (rnd64 m : ℚ) * 2 ^ pexp64 m :=
    not_le.mpr (lt_of_le_of_lt (abs_of_nonneg hval_nonneg ▸ le_abs_self _) hcapv)
  have hm_up : m < 2 ^ (pexp64 m + 53) :=
    lt_of_lt_of_le he.2 (two_zpow_le_two_zpow (by omega))
  have hfl53 : flo64 m < 2 ^ 53 := by
    rw [flo64, habs, Int.floor_lt, div_lt_iff₀ h2p]
    calc m < 2 ^ (pexp64 m + 53) := hm_up
    _ = ((2 ^ 53 : ℤ) : ℚ) * 2 ^ pexp64 m := by
          rw [show ((2 ^ 53 : ℤ) : ℚ) = (2 : ℚ) ^ (53 : ℤ) by push_cast; norm_num,
            ← zpow_add₀ (by norm_num : (2 : ℚ) ≠ 0)]
          ring_nf
  have hrnd_le : rnd64 m ≤ 2 ^ 53 := by rcases hrc with h | h <;> omega
  have hrepr : isRepr64 ((rnd64 m : ℚ) * 2 ^ pexp64 m) := by
    rcases eq_or_lt_of_le hrnd_le with heq | hlt
    · refine ⟨2 ^ 52, pexp64 m + 1, ?_, by norm_num, by omega, hcapv⟩
      rw [heq]
      push_cast
      rw [zpow_add₀ (by norm_num : (2 : ℚ) ≠ 0)]
      ring_nf
    · refine ⟨rnd64 m, pexp64 m, rfl, ?_, by omega, hcapv⟩
      rw [abs_of_nonneg hrnd_nonneg]
      exact hlt
  refine ⟨(rnd64 m : ℚ) * 2 ^ pexp64 m, ?_, hl_le_val, hval_le_r, hrepr⟩
  rw [roundF64, if_neg hm.ne', if_neg hov, if_neg (not_lt.mpr hm.le)]

/-- The interval lemma in full: any value between two representable
bounds rounds to a finite representable value between the bounds. -/
theorem roundF64_between (l r m : ℚ) (hl : isRepr64 l) (hr : isRepr64 r)
    (hlm : l ≤ m) (hmr : m ≤ r) :
    ∃ v, roundF64 m = F.fin v ∧ l ≤ v ∧ v ≤ r ∧ isRepr64 v := by
  rcases lt_trichotomy m 0 with h | h | h
  · obtain ⟨v, hv, h1, h2, h3⟩ :=
      roundF64_between_pos (-r) (-l) (-m) (isRepr64_neg hr) (isRepr64_neg hl)
        (by linarith) (by linarith) (by linarith)
    refine ⟨-v, ?_, by linarith, by linarith, isRepr64_neg h3⟩
    calc roundF64 m = roundF64 (-(-m)) := by rw [neg_neg]
    _ = fnegF (roundF64 (-m)) := roundF64_neg (-m)
    _ = F.fin (-v) := by rw [hv]; rfl
  · refine ⟨0, ?_, by linarith, by linarith, isRepr64_zero⟩
    rw [h, roundF64, if_pos rfl]
  · exact roundF64_between_pos l r m hl hr h hlm hmr

/-! ### The rounded operations on finite values, and concrete
roundings. -/

theorem fadd64_fin (a b : ℚ) : fadd64 (F.fin a) (F.fin b) = roundF64 (a + b) := rfl

theorem fsub64_fin (a b : ℚ) : fsub64 (F.fin a) (F.fin b) = roundF64 (a - b) := rfl

theorem fmul64_fin (a b : ℚ) : fmul64 (F.fin a) (F.fin b) = roundF64 (a * b) := rfl

theorem fdiv64_fin (a b : ℚ) (hb : b ≠ 0) :
    fdiv64 (F.fin a) (F.fin b) = roundF64 (a / b) := by
  simp [fdiv64, hb]

/-- Rounding is the identity on representable values. -/
theorem roundF64_id (q : ℚ) (h : isRepr64 q) : roundF64 q = F.fin q := by
  obtain ⟨v, hv, h1, h2, -⟩ := roundF64_between q q q h h le_rfl le_rfl
  rw [hv, le_antisymm h2 h1]

/-- Building representability from a mantissa/exponent pair with a
crude exponent cap. -/
theorem isRepr64_mk (m p : ℤ) (q : ℚ) (he : q = m * 2 ^ p) (h1 : |m| < 2 ^ 53)
    (h2 : -1074 ≤ p) (h3 : p ≤ 971) : isRepr64 q := by
  refine ⟨m, p, he, h1, h2, ?_⟩
  have hm : |(m : ℚ)| < (2 : ℚ) ^ (53 : ℤ) := by
    rw [show ((2 : ℚ) ^ (53 : ℤ)) = ((2 ^ 53 : ℤ) : ℚ) by push_cast; norm_num]
    exact_mod_cast h1
  calc |q| = |(m : ℚ)| * 2 ^ p := by
        rw [he, abs_mul, abs_of_pos (two_zpow_pos p)]
    _ < 2 ^ (53 : ℤ) * 2 ^ p := mul_lt_mul_of_pos_right hm (two_zpow_pos p)
    _ = 2 ^ (53 + p) := by rw [← zpow_add₀ (by norm_num : (2 : ℚ) ≠ 0)]
    _ ≤ 2 ^ (1024 : ℤ) := two_zpow_le_two_zpow (by omega)

/-- Doubling keeps magnitude-bounded representable values
representable. -/
theorem isRepr64_double (q : ℚ) (h : isRepr64 q) (hb : |q| ≤ (2 : ℚ) ^ (1022 : ℤ)) :
    isRepr64 (2 * q) := by
  obtain ⟨m, p, he, h1, h2, -⟩ := h
  refine ⟨m, p + 1, ?_, h1, by omega, ?_⟩
  · rw [he, zpow_add₀ (by norm_num : (2 : ℚ) ≠ 0)]
    ring
  · have h2q : |2 * q| = 2 * |q| := by rw [abs_mul]; norm_num
    rw [h2q]
    calc 2 * |q| ≤ 2 * 2 ^ (1022 : ℤ) := by linarith
      _ < 2 ^ (1024 : ℤ) := by norm_num

theorem tol64_repr : isRepr64 tol64 :=
  isRepr64_mk 4611686018427388 (-62) tol64 (by rw [tol64]; norm_num)
    (by norm_num) (by norm_num) (by norm_num)

/-- The source's `0.001` literal: the nearest double lies one grid
step above `4611686018427387 * 2^-62`, slightly above `1/1000`. -/
theorem lit001_eq : lit001 = F.fin tol64 := by
  have h := roundF64_up (1 / 1000) 4611686018427387 (-62) (by norm_num) (by norm_num)
    (by norm_num) (by norm_num) (by norm_num) (by norm_num) (by norm_num)
  rw [lit001, h]
  norm_num [tol64]

theorem tol64_gt : (1 : ℚ) / 1000 < tol64 := by norm_num [tol64]

/-- With finite seeds within the tolerance of each other, the binary64
search stops at once and returns the left seed: the rounded width
rounds to a value still within the rounded tolerance. -/
theorem find_median64_stop (n : ℕ) (s : List F) (l r : ℚ) (h : |l - r| ≤ tol64) :
    find_median64 (n + 1) s (F.fin l) (F.fin r) = some (F.fin l) := by
  obtain ⟨habs1, habs2⟩ := abs_le.mp h
  obtain ⟨w, hw, hw1, hw2, -⟩ :=
    roundF64_between (-tol64) tol64 (l - r) (isRepr64_neg tol64_repr) tol64_repr habs1 habs2
  have hc : fleIEEE (fabs (fsub64 (F.fin l) (F.fin r))) lit001 = true := by
    rw [fsub64_fin, hw, fabs_fin, lit001_eq, fleIEEE_fin, decide_eq_true_eq]
    exact abs_le.mpr ⟨hw1, hw2⟩
  simp only [find_median64, hc, if_true]

/-- The binary64 midpoint of magnitude-bounded representable seeds is
a representable value inside the seed interval, again
magnitude-bounded: the doubled bounds `2l` and `2r` cannot overflow,
so the rounded sum stays between them, and halving plus the final
rounding lands between the seeds. -/
theorem mid64_spec (l r : ℚ) (hl : isRepr22 l) (hr : isRepr22 r) (hlr : l ≤ r) :
    ∃ v, fdiv64 (fadd64 (F.fin r) (F.fin l)) (F.fin 2) = F.fin v
      ∧ l ≤ v ∧ v ≤ r ∧ isRepr22 v := by
  obtain ⟨hlre, hlb⟩ := hl
  obtain ⟨hrre, hrb⟩ := hr
  have h2l : isRepr64 (2 * l) := isRepr64_double l hlre hlb
  have h2r : isRepr64 (2 * r) := isRepr64_double r hrre hrb
  obtain ⟨u, hu, hu1, hu2, -⟩ :=
    roundF64_between (2 * l) (2 * r) (r + l) h2l h2r (by linarith) (by linarith)
  obtain ⟨v, hv, hv1, hv2, hvre⟩ :=
    roundF64_between l r (u / 2) hlre hrre (by linarith) (by linarith)
  refine ⟨v, ?_, hv1, hv2, hvre, ?_⟩
  · rw [fadd64_fin, hu, fdiv64_fin u 2 (by norm_num), hv]
  · rw [abs_le]
    refine ⟨?_, ?_⟩
    · have := (abs_le.mp hlb).1
      linarith
    · have := (abs_le.mp hrb).2
      linarith

/-- Whatever the stream, whenever the binary64 search returns from
magnitude-bounded representable seeds `l <= r`, the estimate is a
finite value inside `[l, r]`. -/
theorem find_median64_bounds (n : ℕ) :
    ∀ (s : List F) (l r : ℚ) (m : F), isRepr22 l → isRepr22 r → l ≤ r →
      find_median64 n s (F.fin l) (F.fin r) = some m →
      ∃ q, m = F.fin q ∧ l ≤ q ∧ q ≤ r := by
  induction n with
  | zero => intro s l r m _ _ _ h; cases h
  | succ n ih =>
    intro s l r m hl hr hlr h
    by_cases hst : fleIEEE (fabs (fsub64 (F.fin l) (F.fin r))) lit001 = true
    · rw [find_median64, if_pos hst] at h
      exact ⟨l, (Option.some.injEq _ _ ▸ h).symm, le_refl l, hlr⟩
    · obtain ⟨v, hmid, hv1, hv2, hvre⟩ := mid64_spec l r hl hr hlr
      rw [find_median64, if_neg hst, hmid] at h
      cases hcl : is_median s (F.fin v) with
      | lt =>
        rw [hcl] at h
        obtain ⟨q, hmq, h1, h2⟩ := ih s l v m hl hvre hv1 h
        exact ⟨q, hmq, h1, le_trans h2 hv2⟩
      | eq =>
        rw [hcl] at h
        obtain ⟨q, hmq, h1, h2⟩ := ih s l v m hl hvre hv1 h
        exact ⟨q, hmq, h1, le_trans h2 hv2⟩
      | gt =>
        rw [hcl] at h
        obtain ⟨q, hmq, h1, h2⟩ := ih s v r m hvre hr hv2 h
        exact ⟨q, hmq, le_trans hv1 h1, h2⟩

/-! ### Non-negativity of the binary64 variance scan. -/

/-- Adding accumulators that are positive infinity or non-negative
finite keeps that shape (never NaN, never negative). -/
theorem fadd64_acc (a b : F)
    (ha : a = F.inf false ∨ ∃ v : ℚ, a = F.fin v ∧ 0 ≤ v)
    (hb : b = F.inf false ∨ ∃ v : ℚ, b = F.fin v ∧ 0 ≤ v) :
    fadd64 a b = F.inf false ∨ ∃ v : ℚ, fadd64 a b = F.fin v ∧ 0 ≤ v := by
  rcases ha with rfl | ⟨x, rfl, hx⟩ <;> rcases hb with rfl | ⟨y, rfl, hy⟩
  · left; rfl
  · left; rfl
  · left; rfl
  · rw [fadd64_fin]
    exact roundF64_nonneg (x + y) (by linarith)

/-- The squared deviation of a finite value from a non-NaN mean is
positive infinity or a non-negative finite value. -/
theorem sq64_nonneg (q : ℚ) (m : F) (hm : (∃ b, m = F.inf b) ∨ ∃ v : ℚ, m = F.fin v) :
    fmul64 (fsub64 (F.fin q) m) (fsub64 (F.fin q) m) = F.inf false
      ∨ ∃ v : ℚ, fmul64 (fsub64 (F.fin q) m) (fsub64 (F.fin q) m) = F.fin v ∧ 0 ≤ v := by
  rcases hm with ⟨b, rfl⟩ | ⟨w, rfl⟩
  · left
    show fmul64 (F.inf (!b)) (F.inf (!b)) = F.inf false
    cases b <;> rfl
  · rw [fsub64_fin]
    rcases roundF64_shape (q - w) with ⟨b, hb⟩ | ⟨v, hv⟩
    · rw [hb]
      left
      cases b <;> rfl
    · rw [hv, fmul64_fin]
      exact roundF64_nonneg (v * v) (mul_self_nonneg v)

/-- The second `dispersion` scan keeps the accumulator positive
infinity or non-negative finite on a stream of finite values. -/
theorem sqDev64_foldl_nonneg (m : F)
    (hm : (∃ b, m = F.inf b) ∨ ∃ v : ℚ, m = F.fin v) (s : List F) :
    (∀ x ∈ s, ∃ q : ℚ, x = F.fin q) →
    ∀ (a : F) (k : ℕ), (a = F.inf false ∨ ∃ v : ℚ, a = F.fin v ∧ 0 ≤ v) →
      ((s.foldl (sqDevStep64 m) (a, k)).1 = F.inf false
        ∨ ∃ v : ℚ, (s.foldl (sqDevStep64 m) (a, k)).1 = F.fin v ∧ 0 ≤ v) := by
  induction s with
  | nil => intro _ a k ha; simpa using ha
  | cons x xs ih =>
    intro hf a k ha
    obtain ⟨q, hq⟩ := hf x (List.mem_cons_self x xs)
    subst hq
    rw [List.foldl_cons]
    simp only [sqDevStep64]
    exact ih (fun y hy => hf y (List.mem_cons_of_mem _ hy)) _ _
      (fadd64_acc _ _ ha (sq64_nonneg q m hm))

/-- The second scan counts one per value. -/
theorem foldl_step64_len (m : F) (s : List F) :
    ∀ (a : F) (k : ℕ), (s.foldl (sqDevStep64 m) (a, k)).2 = k + s.length := by
  induction s with
  | nil => intro a k; simp
  | cons x xs ih =>
    intro a k
    rw [List.foldl_cons]
    simp only [sqDevStep64]
    rw [ih]
    simp only [List.length_cons]
    omega

/-- The sum scan keeps the accumulator infinite or finite (never NaN)
on a stream of finite values. -/
theorem sum64_shape (s : List F) :
    (∀ x ∈ s, ∃ q : ℚ, x = F.fin q) →
    ∀ (a : F) (k : ℕ), ((∃ b, a = F.inf b) ∨ ∃ v : ℚ, a = F.fin v) →
      ((∃ b, (s.foldl sumLenStep64 (a, k)).1 = F.inf b)
        ∨ ∃ v : ℚ, (s.foldl sumLenStep64 (a, k)).1 = F.fin v) := by
  induction s with
  | nil => intro _ a k ha; simpa using ha
  | cons x xs ih =>
    intro hf a k ha
    obtain ⟨q, hq⟩ := hf x (List.mem_cons_self x xs)
    subst hq
    rw [List.foldl_cons]
    simp only [sumLenStep64]
    refine ih (fun y hy => hf y (List.mem_cons_of_mem _ hy)) _ _ ?_
    rcases ha with ⟨b, rfl⟩ | ⟨v, rfl⟩
    · exact Or.inl ⟨b, rfl⟩
    · rw [fadd64_fin]
      rcases roundF64_shape (v + q) with ⟨b, hb⟩ | ⟨w, hw⟩
      · exact Or.inl ⟨b, hb⟩
      · exact Or.inr ⟨w, hw⟩

/-- The sum scan counts one per value. -/
theorem foldl_sum64_len (s : List F) :
    ∀ (a : F) (k : ℕ), (s.foldl sumLenStep64 (a, k)).2 = k + s.length := by
  induction s with
  | nil => intro a k; simp
  | cons x xs ih =>
    intro a k
    rw [List.foldl_cons]
    simp only [sumLenStep64]
    rw [ih]
    simp only [List.length_cons]
    omega

/-- The binary64 mean of a nonempty stream of finite values is
infinite or finite, never NaN. -/
theorem average64_shape (s : List F) (hs : s ≠ [])
    (hf : ∀ x ∈ s, ∃ q : ℚ, x = F.fin q) :
    (∃ b, average64 s = F.inf b) ∨ ∃ v : ℚ, average64 s = F.fin v := by
  have hn : (((s.foldl sumLenStep64 (F.fin 0, 0)).2 : ℕ) : ℚ) ≠ 0 := by
    rw [foldl_sum64_len]
    simp only [Nat.zero_add, ne_eq, Nat.cast_eq_zero]
    exact fun h => hs (List.length_eq_zero.mp h)
  simp only [average64]
  rcases sum64_shape s hf (F.fin 0) 0 (Or.inr ⟨0, rfl⟩) with ⟨b, hb⟩ | ⟨v, hv⟩
  · rw [hb]
    exact Or.inl ⟨_, rfl⟩
  · rw [hv, fdiv64_fin _ _ hn]
    rcases roundF64_shape (v / ((s.foldl sumLenStep64 (F.fin 0, 0)).2 : ℚ)) with
      ⟨b, hb⟩ | ⟨w, hw⟩
    · exact Or.inl ⟨b, hb⟩
    · exact Or.inr ⟨w, hw⟩

/-- The binary64 variance of a nonempty stream of finite values is
positive infinity or a non-negative finite value. -/
theorem dispersion64_nonneg (s : List F) (hs : s ≠ [])
    (hf : ∀ x ∈ s, ∃ q : ℚ, x = F.fin q) :
    dispersion64 s = F.inf false ∨ ∃ v : ℚ, dispersion64 s = F.fin v ∧ 0 ≤ v := by
  have hm := average64_shape s hs hf
  have hacc := sqDev64_foldl_nonneg (average64 s) hm s hf (F.fin 0) 0
    (Or.inr ⟨0, rfl, le_refl 0⟩)
  have hlen : (s.foldl (sqDevStep64 (average64 s)) (F.fin 0, 0)).2 = s.length := by
    rw [foldl_step64_len]
    omega
  have hpos : (0 : ℚ) < ((s.foldl (sqDevStep64 (average64 s)) (F.fin 0, 0)).2 : ℕ) := by
    rw [hlen]
    exact_mod_cast List.length_pos.mpr hs
  simp only [dispersion64]
  rcases hacc with hinf | ⟨v, hv, hvn⟩
  · rw [hinf]
    left
    show F.inf (xor false (decide (((s.foldl (sqDevStep64 (average64 s))
        (F.fin 0, 0)).2 : ℚ) < 0))) = F.inf false
    rw [decide_eq_false (not_lt.mpr hpos.le)]
    rfl
  · rw [hv, fdiv64_fin _ _ hpos.ne']
    exact roundF64_nonneg _ (div_nonneg hvn hpos.le)

/-! ### Concrete binary64 computations: the diverging bisection, the
constant stream with nonzero variance, the overflowing mean. -/

theorem lC3_repr : isRepr64 lC3 :=
  isRepr64_mk 8796093022208 0 lC3 (by rw [lC3]; norm_num) (by norm_num) (by norm_num)
    (by norm_num)

set_option maxRecDepth 2000 in
theorem is_median_sC3 : is_median sC3 (F.fin lC3) = .gt := by with_unfolding_all decide

/-- The bisection never returns on the stream `sC3`: the interval is
wider than the tolerance, but the binary64 midpoint of the two seeds
rounds (tie to the even grid point `2^44`, then an exact halving) back
onto the left seed, and the majority of the stream lies above it, so
the `Greater` branch recurses on the identical interval. -/
theorem find_median64_sC3_none :
    ∀ n, find_median64 n sC3 (F.fin lC3) (F.fin rC3) = none := by
  have hdiff : lC3 - rC3 = ((-1 : ℤ) : ℚ) * 2 ^ (-9 : ℤ) := by
    rw [lC3, rC3]
    norm_num
  have hdrepr : isRepr64 (lC3 - rC3) :=
    isRepr64_mk (-1) (-9) _ hdiff (by norm_num) (by norm_num) (by norm_num)
  have hstop : ¬ fleIEEE (fabs (fsub64 (F.fin lC3) (F.fin rC3))) lit001 = true := by
    rw [fsub64_fin, roundF64_id _ hdrepr, fabs_fin, lit001_eq, fleIEEE_fin,
      decide_eq_true_eq, not_le, hdiff, abs_mul, abs_of_pos (two_zpow_pos (-9 : ℤ)),
      tol64]
    norm_num
  have hsum : fadd64 (F.fin rC3) (F.fin lC3) = F.fin 17592186044416 := by
    rw [fadd64_fin,
      roundF64_tie_even (rC3 + lC3) 4503599627370496 (-8) (by norm_num) (by norm_num)
        (by norm_num) (by rw [rC3, lC3]; norm_num) (by rw [rC3, lC3]; norm_num)
        (by rw [rC3, lC3]; norm_num) (by norm_num) (by norm_num)]
    norm_num
  have hmid : fdiv64 (fadd64 (F.fin rC3) (F.fin lC3)) (F.fin 2) = F.fin lC3 := by
    rw [hsum, fdiv64_fin _ _ (by norm_num),
      show (17592186044416 : ℚ) / 2 = lC3 by rw [lC3]; norm_num]
    exact roundF64_id _ lC3_repr
  intro n
  induction n with
  | zero => rfl
  | succ n ih =>
    rw [find_median64, if_neg hstop, hmid, is_median_sC3]
    exact ih

theorem c01_repr : isRepr64 c01 :=
  isRepr64_mk 3602879701896397 (-55) c01 (by rw [c01]; norm_num) (by norm_num)
    (by norm_num) (by norm_num)

/-- The binary64 sum of three copies of the double `0.1`: the third
addition is a tie broken upward (odd grid index). -/
theorem sum01_eq :
    fadd64 (fadd64 (fadd64 (F.fin 0) (F.fin c01)) (F.fin c01)) (F.fin c01)
      = F.fin (5404319552844596 * (2 : ℚ) ^ (-54 : ℤ)) := by
  have h1 : fadd64 (F.fin 0) (F.fin c01) = F.fin c01 := by
    rw [fadd64_fin, zero_add, roundF64_id _ c01_repr]
  have h2 : fadd64 (F.fin c01) (F.fin c01) = F.fin (c01 + c01) := by
    rw [fadd64_fin, roundF64_id _ (isRepr64_mk 3602879701896397 (-54) _
      (by rw [c01]; norm_num) (by norm_num) (by norm_num) (by norm_num))]
  rw [h1, h2, fadd64_fin,
    roundF64_tie_odd (c01 + c01 + c01) 5404319552844595 (-54) (by norm_num) (by norm_num)
      (by norm_num) (by rw [c01]; norm_num) (by rw [c01]; norm_num)
      (by rw [c01]; norm_num) (by norm_num) (by norm_num)]
  norm_num

/-- The binary64 mean of `[0.1, 0.1, 0.1]`: dividing the rounded sum
by 3 rounds upward again, strictly above `0.1`. -/
theorem mean01_eq :
    average64 [F.fin c01, F.fin c01, F.fin c01] = F.fin mean01 := by
  simp only [average64, List.foldl_cons, List.foldl_nil, sumLenStep64]
  rw [sum01_eq, show (((0 + 1 + 1 + 1 : ℕ)) : ℚ) = 3 by norm_num,
    fdiv64_fin _ _ (by norm_num),
    roundF64_up (5404319552844596 * (2 : ℚ) ^ (-54 : ℤ) / 3) 7205759403792794 (-56)
      (by norm_num) (by norm_num) (by norm_num) (by norm_num) (by norm_num)
      (by norm_num) (by norm_num)]
  rw [mean01]
  norm_num

/-- `0.1` is strictly below the binary64 mean of `[0.1, 0.1, 0.1]`. -/
theorem c01_lt_mean01 : c01 < mean01 := by
  rw [c01, mean01]
  norm_num

/-- The binary64 variance of `[0.1, 0.1, 0.1]` is exactly `2^-112`,
not `0`: each deviation from the inflated mean is `-2^-56`. -/
theorem dispersion64_c01 :
    dispersion64 [F.fin c01, F.fin c01, F.fin c01] = F.fin ((2 : ℚ) ^ (-112 : ℤ)) := by
  have hd : fsub64 (F.fin c01) (F.fin mean01) = F.fin (c01 - mean01) := by
    rw [fsub64_fin, roundF64_id _ (isRepr64_mk (-1) (-56) _
      (by rw [c01, mean01]; norm_num) (by norm_num) (by norm_num) (by norm_num))]
  have hsq : fmul64 (F.fin (c01 - mean01)) (F.fin (c01 - mean01))
      = F.fin ((c01 - mean01) * (c01 - mean01)) := by
    rw [fmul64_fin, roundF64_id _ (isRepr64_mk 1 (-112) _
      (by rw [c01, mean01]; norm_num) (by norm_num) (by norm_num) (by norm_num))]
  have ha1 : fadd64 (F.fin 0) (F.fin ((c01 - mean01) * (c01 - mean01)))
      = F.fin ((c01 - mean01) * (c01 - mean01)) := by
    rw [fadd64_fin, zero_add, roundF64_id _ (isRepr64_mk 1 (-112) _
      (by rw [c01, mean01]; norm_num) (by norm_num) (by norm_num) (by norm_num))]
  have ha2 : fadd64 (F.fin ((c01 - mean01) * (c01 - mean01)))
        (F.fin ((c01 - mean01) * (c01 - mean01)))
      = F.fin ((c01 - mean01) * (c01 - mean01) + (c01 - mean01) * (c01 - mean01)) := by
    rw [fadd64_fin, roundF64_id _ (isRepr64_mk 1 (-111) _
      (by rw [c01, mean01]; norm_num) (by norm_num) (by norm_num) (by norm_num))]
  have ha3 : fadd64
        (F.fin ((c01 - mean01) * (c01 - mean01) + (c01 - mean01) * (c01 - mean01)))
        (F.fin ((c01 - mean01) * (c01 - mean01)))
      = F.fin ((c01 - mean01) * (c01 - mean01) + (c01 - mean01) * (c01 - mean01)
          + (c01 - mean01) * (c01 - mean01)) := by
    rw [fadd64_fin, roundF64_id _ (isRepr64_mk 3 (-112) _
      (by rw [c01, mean01]; norm_num) (by norm_num) (by norm_num) (by norm_num))]
  simp only [dispersion64, List.foldl_cons, List.foldl_nil, sqDevStep64, mean01_eq]
  rw [hd, hsq, ha1, ha2, ha3, show (((0 + 1 + 1 + 1 : ℕ)) : ℚ) = 3 by norm_num,
    fdiv64_fin _ _ (by norm_num),
    show ((c01 - mean01) * (c01 - mean01) + (c01 - mean01) * (c01 - mean01)
        + (c01 - mean01) * (c01 - mean01)) / 3 = (c01 - mean01) * (c01 - mean01) by ring,
    roundF64_id _ (isRepr64_mk 1 (-112) _ (by rw [c01, mean01]; norm_num) (by norm_num)
      (by norm_num) (by norm_num)),
    show (c01 - mean01) * (c01 - mean01) = (2 : ℚ) ^ (-112 : ℤ) by rw [c01, mean01]; norm_num]

theorem vC9_repr : isRepr64 vC9 :=
  isRepr64_mk (2 ^ 52) 971 vC9 (by rw [vC9]; norm_num) (by norm_num) (by norm_num)
    (by norm_num)

/-- The binary64 mean of `[2^1023, 2^1023]` is positive infinity: the
sum overflows before the division can bring it back in range. -/
theorem average64_vC9 : average64 [F.fin vC9, F.fin vC9] = F.inf false := by
  have h1 : fadd64 (F.fin 0) (F.fin vC9) = F.fin vC9 := by
    rw [fadd64_fin, zero_add, roundF64_id _ vC9_repr]
  have h2 : fadd64 (F.fin vC9) (F.fin vC9) = F.inf false := by
    rw [fadd64_fin,
      roundF64_inf (vC9 + vC9) (2 ^ 52) 972 (by norm_num) (by norm_num) (by norm_num)
        (by rw [vC9]; norm_num) (by rw [vC9]; norm_num) (by rw [vC9]; norm_num)
        (by norm_num)]
  simp only [average64, List.foldl_cons, List.foldl_nil, sumLenStep64]
  rw [h1, h2]
  show F.inf (xor false (decide ((((0 + 1 + 1 : ℕ)) : ℚ) < 0))) = F.inf false
  rw [decide_eq_false (by norm_num : ¬ ((((0 + 1 + 1 : ℕ)) : ℚ) < 0))]
  rfl

/-! ### The token grammar: an accepted token holds only bytes of the
grammar alphabet. -/

theorem stripSign_shape (t : List ℕ) :
    t = (stripSign t).2 ∨ t = 43 :: (stripSign t).2 ∨ t = 45 :: (stripSign t).2 := by
  cases t with
  | nil => left; rfl
  | cons b r =>
    by_cases h45 : b = 45
    · subst h45; right; right; simp [stripSign]
    · by_cases h43 : b = 43
      · subst h43; right; left; simp [stripSign]
      · left; simp [stripSign, h45, h43]

theorem allowed_iff (b : ℕ) :
    allowed b = true ↔
      (48 ≤ b ∧ b ≤ 57) ∨ b = 43 ∨ b = 45 ∨ b = 46 ∨ b = 69 ∨ b = 101 ∨ b = 105
        ∨ b = 110 ∨ b = 102 ∨ b = 116 ∨ b = 121 ∨ b = 97 ∨ b = 73 ∨ b = 78 ∨ b = 70
        ∨ b = 84 ∨ b = 89 ∨ b = 65 := by
  simp [allowed, isDigit, and_assoc]

theorem allowed_of_digit (b : ℕ) (h : isDigit b = true) : allowed b = true := by
  simp [allowed, h]

theorem allowed_of_lower (b : ℕ)
    (h : lowerByte b ∈ ([105, 110, 102, 116, 121, 97] : List ℕ)) : allowed b = true := by
  rw [allowed_iff]
  unfold lowerByte at h
  by_cases hc : (65 ≤ b && b ≤ 90) = true
  · rw [if_pos hc] at h
    simp only [Bool.and_eq_true, decide_eq_true_eq] at hc
    simp only [List.mem_cons, List.not_mem_nil, or_false] at h
    omega
  · rw [if_neg hc] at h
    simp only [List.mem_cons, List.not_mem_nil, or_false] at h
    omega

theorem parseExpPart_allowed (t : List ℕ) (e : ℤ) (h : parseExpPart t = some e) :
    ∀ b ∈ t, allowed b = true := by
  intro b hb
  unfold parseExpPart at h
  split at h
  case isFalse => cases h
  case isTrue hcond =>
    have hpair := hcond
    simp only [Bool.and_eq_true] at hpair
    have hdig : ∀ x ∈ (stripSign t).2, isDigit x = true := List.all_eq_true.mp hpair.2
    rcases stripSign_shape t with he | he | he
    · rw [he] at hb
      exact allowed_of_digit b (hdig b hb)
    · rw [he] at hb
      rcases List.mem_cons.mp hb with rfl | hb2
      · rw [allowed_iff]; omega
      · exact allowed_of_digit b (hdig b hb2)
    · rw [he] at hb
      rcases List.mem_cons.mp hb with rfl | hb2
      · rw [allowed_iff]; omega
      · exact allowed_of_digit b (hdig b hb2)

theorem mem_dropWhile_of_mem (p : ℕ → Bool) (t : List ℕ) (b : ℕ) (hb : b ∈ t)
    (hnot : b ∉ t.takeWhile p) : b ∈ t.dropWhile p := by
  have hsplit := List.takeWhile_append_dropWhile (p := p) (l := t)
  rcases List.mem_append.mp (by rw [hsplit]; exact hb) with h1 | h1
  · exact absurd h1 hnot
  · exact h1

theorem parseNumber_allowed (t : List ℕ) (q : ℚ) (h : parseNumber t = some q) :
    ∀ b ∈ t, allowed b = true := by
  intro b hb
  by_cases hbtake : b ∈ t.takeWhile isDigit
  · exact allowed_of_digit b (List.mem_takeWhile_imp hbtake)
  have hbdrop := mem_dropWhile_of_mem isDigit t b hb hbtake
  unfold parseNumber at h
  split at h
  case _ heq => rw [heq] at hbdrop; cases hbdrop
  case _ c r heq =>
    rw [heq] at hbdrop
    rcases List.mem_cons.mp hbdrop with rfl | hbr
    · -- the byte is the head of the non-digit remainder: a dot or an
      -- exponent marker, else the parse fails
      split at h
      case isTrue hc => rw [allowed_iff]; omega
      case isFalse hc =>
        split at h
        case isTrue hc2 =>
          have hpair := hc2
          simp only [Bool.and_eq_true, Bool.or_eq_true, decide_eq_true_eq] at hpair
          rw [allowed_iff]; omega
        case isFalse => cases h
    · -- the byte sits after the head of the remainder
      split at h
      case isTrue hc =>
        -- fraction branch
        split at h
        case isTrue => cases h
        case isFalse =>
          by_cases hbt2 : b ∈ r.takeWhile isDigit
          · exact allowed_of_digit b (List.mem_takeWhile_imp hbt2)
          have hbd2 := mem_dropWhile_of_mem isDigit r b hbr hbt2
          split at h
          case _ heq2 => rw [heq2] at hbd2; cases hbd2
          case _ e r4 heq2 =>
            rw [heq2] at hbd2
            split at h
            case isFalse => cases h
            case isTrue he =>
              rcases List.mem_cons.mp hbd2 with rfl | hbr4
              · simp only [Bool.or_eq_true, decide_eq_true_eq] at he
                rw [allowed_iff]; omega
              · obtain ⟨ex, hex, _⟩ := Option.map_eq_some'.mp h
                exact parseExpPart_allowed r4 ex hex b hbr4
      case isFalse hc =>
        split at h
        case isFalse => cases h
        case isTrue hc2 =>
          obtain ⟨ex, hex, _⟩ := Option.map_eq_some'.mp h
          exact parseExpPart_allowed r ex hex b hbr

theorem parseF64_allowed (t : List ℕ) (v : F) (h : parseF64 t = some v) :
    ∀ b ∈ t, allowed b = true := by
  intro b hb
  have hsr : b ∈ (stripSign t).2 → allowed b = true := by
    intro hb2
    unfold parseF64 at h
    split at h
    case isTrue hc =>
      have hlow := List.mem_map_of_mem lowerByte hb2
      rcases hc with hc | hc
      · rw [hc] at hlow
        apply allowed_of_lower
        simp only [List.mem_cons, List.not_mem_nil, or_false] at hlow ⊢
        omega
      · rw [hc] at hlow
        apply allowed_of_lower
        simp only [List.mem_cons, List.not_mem_nil, or_false] at hlow ⊢
        omega
    case isFalse =>
      split at h
      case isTrue hc =>
        have hlow := List.mem_map_of_mem lowerByte hb2
        rw [hc] at hlow
        apply allowed_of_lower
        simp only [List.mem_cons, List.not_mem_nil, or_false] at hlow ⊢
        omega
      case isFalse =>
        obtain ⟨q, hq, _⟩ := Option.map_eq_some'.mp h
        exact parseNumber_allowed _ q hq b hb2
  rcases stripSign_shape t with he | he | he
  · rw [he] at hb; exact hsr hb
  · rw [he] at hb
    rcases List.mem_cons.mp hb with rfl | hb2
    · rw [allowed_iff]; omega
    · exact hsr hb2
  · rw [he] at hb
    rcases List.mem_cons.mp hb with rfl | hb2
    · rw [allowed_iff]; omega
    · exact hsr hb2

/-- Contrapositive form: a token holding any byte outside the grammar
alphabet is rejected. -/
theorem parseF64_eq_none (t : List ℕ) (b : ℕ) (hb : b ∈ t) (hbad : allowed b = false) :
    parseF64 t = none := by
  cases h : parseF64 t with
  | none => rfl
  | some v =>
    have := parseF64_allowed t v h b hb
    rw [hbad] at this
    cases this

/-! ### The split primitive and the whole-scan parse. -/

theorem splitBytes_ne_nil (bs : List ℕ) : ∀ acc : List ℕ, splitBytes acc bs ≠ [] := by
  induction bs with
  | nil => intro acc; simp [splitBytes]
  | cons b bs ih =>
    intro acc
    by_cases hb : b = 32
    · simp [splitBytes, hb]
    · simp only [splitBytes, if_neg hb]
      exact ih (b :: acc)

/-- A source ending in a non-delimiter byte: the last segment is
nonempty and carries that byte. -/
theorem splitBytes_last (bs : List ℕ) :
    ∀ (acc : List ℕ) (b : ℕ), b ≠ 32 →
      ∃ t, (splitBytes acc (bs ++ [b])).getLast? = some t ∧ b ∈ t ∧ t ≠ [] := by
  induction bs with
  | nil =>
    intro acc b hb
    simp only [List.nil_append, splitBytes, if_neg hb]
    refine ⟨(b :: acc).reverse, rfl, ?_, by simp⟩
    exact List.mem_reverse.mpr (List.mem_cons_self b acc)
  | cons c cs ih =>
    intro acc b hb
    by_cases hc : c = 32
    · simp only [List.cons_append, splitBytes, if_pos hc]
      obtain ⟨t, ht, hbt, hne⟩ := ih [] b hb
      cases hL : splitBytes [] (cs ++ [b]) with
      | nil => exact absurd hL (splitBytes_ne_nil _ [])
      | cons y ys =>
        rw [hL] at ht
        exact ⟨t, by rw [List.getLast?_cons_cons]; exact ht, hbt, hne⟩
    · simp only [List.cons_append, splitBytes, if_neg hc]
      exact ih (c :: acc) b hb

/-- Splitting is inverse to interleaving the 0x20 delimiter: the scan
splits on that byte and on nothing else. -/
theorem joinWith_splitBytes (bs : List ℕ) :
    ∀ acc : List ℕ, joinWith (splitBytes acc bs) = acc.reverse ++ bs := by
  induction bs with
  | nil => intro acc; simp [splitBytes, joinWith]
  | cons b bs ih =>
    intro acc
    by_cases hb : b = 32
    · subst hb
      simp only [splitBytes, eq_self_iff_true, if_true]
      cases hL : splitBytes [] bs with
      | nil => exact absurd hL (splitBytes_ne_nil _ [])
      | cons y ys =>
        have hjoin : joinWith (acc.reverse :: y :: ys) = acc.reverse ++ 32 :: joinWith (y :: ys) :=
          rfl
        rw [hjoin, ← hL, ih []]
        simp
    · simp only [splitBytes, if_neg hb, ih (b :: acc), List.reverse_cons, List.append_assoc,
        List.singleton_append]

theorem parseAll_eq_none (ts : List (List ℕ)) (t : List ℕ) (ht : t ∈ ts)
    (hfail : parseF64 t = none) : parseAll ts = none := by
  induction ts with
  | nil => cases ht
  | cons u us ih =>
    rcases List.mem_cons.mp ht with rfl | ht2
    · simp [parseAll, hfail]
    · simp only [parseAll]
      cases parseF64 u with
      | none => rfl
      | some v => rw [ih ht2]; rfl

theorem parseAll_isSome (ts : List (List ℕ)) (h : ∀ t ∈ ts, (parseF64 t).isSome = true) :
    ∃ vs, parseAll ts = some vs ∧ vs.length = ts.length := by
  induction ts with
  | nil => exact ⟨[], rfl, rfl⟩
  | cons u us ih =>
    obtain ⟨v, hv⟩ := Option.isSome_iff_exists.mp (h u (List.mem_cons_self u us))
    obtain ⟨vs, hvs, hlen⟩ := ih (fun t ht => h t (List.mem_cons_of_mem u ht))
    refine ⟨v :: vs, ?_, by simp [hlen]⟩
    simp [parseAll, hv, hvs]

/-- Every statistic of a source whose scan fails reports the failure
and nothing else. -/
theorem stats_all_none (src : List ℕ) (k fuel : ℕ) (h : for_file src = none) :
    lenSrc src = none ∧ min_maxSrc src = none ∧ averageSrc src = none
      ∧ dispersionSrc src = none ∧ medianSrc fuel src = none ∧ tailsSrc src k = none := by
  refine ⟨?_, ?_, ?_, ?_, ?_, ?_⟩ <;>
    simp [lenSrc, min_maxSrc, averageSrc, dispersionSrc, medianSrc, tailsSrc, h]

/-- A source ending in a non-space, non-grammar byte makes the scan
fail. -/
theorem for_file_append_bad (src : List ℕ) (b : ℕ) (hb32 : b ≠ 32)
    (hbad : allowed b = false) : for_file (src ++ [b]) = none := by
  obtain ⟨t, ht, hbt, hne⟩ := splitBytes_last src [] b hb32
  have htmem : t ∈ rustSplit (src ++ [b]) := by
    unfold rustSplit
    have hlast_ne : splitBytes [] (src ++ [b]) ≠ [] := splitBytes_ne_nil _ []
    have : (splitBytes [] (src ++ [b])).getLast? ≠ some [] := by
      rw [ht]
      intro hcontr
      exact hne (Option.some.injEq _ _ ▸ hcontr)
    rw [if_neg this]
    exact List.mem_of_mem_getLast? ht
  exact parseAll_eq_none _ t htmem (parseF64_eq_none t b hbt hbad)

/-! ### The claims. -/

/-- C1, amended: for the empty source, `count` returns 0; `min_max`
returns success carrying absence (`None`); `average` returns success
carrying NaN rather than reporting a failure; and `median` terminates
abnormally (the `expect` panic), not through the tagged result. -/
theorem spec_C1 :
    lenSrc [] = some 0 ∧ min_maxSrc [] = some none
      ∧ averageSrc [] = some (F.nan false)
      ∧ ∀ fuel, medianSrc fuel [] = some (Except.error "median requires 1+ value") :=
  ⟨rfl, rfl, rfl, fun _ => rfl⟩

/-- C1 counterexample: at the empty source, `average` succeeds with a
NaN value instead of failing, and `median` panics with the `expect`
message instead of reporting a tagged precondition failure. -/
theorem cex_C1 :
    averageSrc [] ≠ none ∧ averageSrc [] = some (F.nan false)
      ∧ medianSrc 1 [] = some (Except.error "median requires 1+ value") := by
  refine ⟨?_, rfl, rfl⟩
  intro h
  rw [show averageSrc [] = some (F.nan false) from rfl] at h
  cases h

/-- C2: in every non-stopping bisection step, with `mid = (left +
right) / 2` and the `(less, equal, greater)` counts of one full scan:
the search narrows to `[left, mid]` when `|greater - less| < equal +
1`, otherwise to `[left, mid]` when `greater < less`, and otherwise to
`[mid, right]`. -/
theorem spec_C2 (s : List F) (l r : F) (n : ℕ)
    (h : fleIEEE (fabs (fsub l r)) (F.fin (1 / 1000)) = false) :
    find_median_fuel (n + 1) s l r =
      if |(countTriple s (fdiv (fadd r l) (F.fin 2))).2.2
            - (countTriple s (fdiv (fadd r l) (F.fin 2))).1|
          < (countTriple s (fdiv (fadd r l) (F.fin 2))).2.1 + 1 then
        find_median_fuel n s l (fdiv (fadd r l) (F.fin 2))
      else if (countTriple s (fdiv (fadd r l) (F.fin 2))).2.2
          < (countTriple s (fdiv (fadd r l) (F.fin 2))).1 then
        find_median_fuel n s l (fdiv (fadd r l) (F.fin 2))
      else find_median_fuel n s (fdiv (fadd r l) (F.fin 2)) r := by
  simp only [find_median_fuel, h, Bool.false_eq_true, if_false, is_median]
  split_ifs <;> rfl

/-- C2 witness: a concrete non-stopping step (empty stream, seeds 0
and 1) lands in the balanced branch and narrows to `[left, mid]`. -/
theorem w_C2 :
    fleIEEE (fabs (fsub (F.fin 0) (F.fin 1))) (F.fin (1 / 1000)) = false
      ∧ find_median_fuel 1 [] (F.fin 0) (F.fin 1) =
          if |(countTriple [] (fdiv (fadd (F.fin 1) (F.fin 0)) (F.fin 2))).2.2
                - (countTriple [] (fdiv (fadd (F.fin 1) (F.fin 0)) (F.fin 2))).1|
              < (countTriple [] (fdiv (fadd (F.fin 1) (F.fin 0)) (F.fin 2))).2.1 + 1 then
            find_median_fuel 0 [] (F.fin 0) (fdiv (fadd (F.fin 1) (F.fin 0)) (F.fin 2))
          else if (countTriple [] (fdiv (fadd (F.fin 1) (F.fin 0)) (F.fin 2))).2.2
              < (countTriple [] (fdiv (fadd (F.fin 1) (F.fin 0)) (F.fin 2))).1 then
            find_median_fuel 0 [] (F.fin 0) (fdiv (fadd (F.fin 1) (F.fin 0)) (F.fin 2))
          else find_median_fuel 0 [] (fdiv (fadd (F.fin 1) (F.fin 0)) (F.fin 2)) (F.fin 1) := by
  have hstop : fleIEEE (fabs (fsub (F.fin 0) (F.fin 1))) (F.fin (1 / 1000)) = false := by
    simp only [fsub_fin, fabs_fin, fleIEEE_fin, decide_eq_false_iff_not]
    norm_num
  exact ⟨hstop, spec_C2 [] (F.fin 0) (F.fin 1) 0 hstop⟩

/-- C3, amended: with the binary64 width test of the running program,
the search stops at its first call and returns the left seed as soon
as `|left - right| <= 1e-3`; but the termination half of the claim is
false of the program: for finite seeds the bisection need not
terminate at any recursion depth (see the counterexample). -/
theorem spec_C3 (n : ℕ) (s : List F) (l r : ℚ) (h : |l - r| ≤ 1 / 1000) :
    find_median64 (n + 1) s (F.fin l) (F.fin r) = some (F.fin l) :=
  find_median64_stop n s l r (le_trans h tol64_gt.le)

/-- C3 witness at seeds `0` and `1/1000` on the empty stream. -/
theorem w_C3 :
    |(0 : ℚ) - 1 / 1000| ≤ 1 / 1000
      ∧ find_median64 1 [] (F.fin 0) (F.fin (1 / 1000)) = some (F.fin 0) := by
  have h : |(0 : ℚ) - 1 / 1000| ≤ 1 / 1000 := by
    rw [show (0 : ℚ) - 1 / 1000 = -(1 / 1000) by norm_num, abs_neg,
      abs_of_nonneg (by norm_num : (0 : ℚ) ≤ 1 / 1000)]
  exact ⟨h, spec_C3 0 [] 0 (1 / 1000) h⟩

/-- C3 counterexample: the stream with one value `2^43` and three
values `2^43 + 2^-9` seeds the search with its minimum and maximum, an
interval wider than the tolerance whose binary64 midpoint rounds back
onto the left endpoint; the `Greater` branch then repeats the
identical interval, and the search returns no value at any recursion
depth. -/
theorem cex_C3 :
    min_max sC3 = some (F.fin lC3, F.fin rC3)
      ∧ lC3 ≤ rC3
      ∧ ¬ |lC3 - rC3| ≤ 1 / 1000
      ∧ ∀ n, find_median64 n sC3 (F.fin lC3) (F.fin rC3) = none := by
  have hlr : lC3 ≤ rC3 := by rw [lC3, rC3]; norm_num
  refine ⟨?_, hlr, ?_, find_median64_sC3_none⟩
  · rw [show sC3 = [lC3, rC3, rC3, rC3].map F.fin from rfl, min_max_map_fin]
    simp only [List.foldl_cons, List.foldl_nil, min_eq_left hlr, max_eq_right hlr,
      min_self, max_self]
  · rw [not_le, show lC3 - rC3 = -(1 / 512) by rw [lC3, rC3]; norm_num, abs_neg,
      abs_of_nonneg (by norm_num : (0 : ℚ) ≤ 1 / 512)]
    norm_num

/-- C5, amended: the variance is computed by two full scans — the
binary64 mean first, then the binary64 sum of squared deviations
divided by the count `n` (not `n - 1`) — and for every nonempty stream
of finite values the result is non-negative under the IEEE comparison
(a non-negative finite value or positive infinity, never NaN).  The
claimed exact `0` for constant streams is false in binary64, as is
non-negativity on the empty stream, where the result is NaN (see the
counterexample). -/
theorem spec_C5 (s : List F) (hs : s ≠ []) (hf : ∀ x ∈ s, ∃ q : ℚ, x = F.fin q) :
    dispersion64 s
        = fdiv64 ((s.foldl (sqDevStep64 (average64 s)) (F.fin 0, 0)).1)
            (F.fin (((s.foldl (sqDevStep64 (average64 s)) (F.fin 0, 0)).2 : ℕ) : ℚ))
      ∧ (s.foldl (sqDevStep64 (average64 s)) (F.fin 0, 0)).2 = s.length
      ∧ fleIEEE (F.fin 0) (dispersion64 s) = true := by
  refine ⟨rfl, by rw [foldl_step64_len]; omega, ?_⟩
  rcases dispersion64_nonneg s hs hf with h | ⟨v, hv, hvn⟩
  · rw [h]
    rfl
  · rw [hv, fleIEEE_fin, decide_eq_true_eq]
    exact hvn

/-- C5 counterexample: the constant stream `[0.1, 0.1, 0.1]` has
binary64 variance exactly `2^-112`, not `0` (the rounded mean is
`0.1 + 2^-56`, strictly above every value); and on the empty stream
the variance is NaN, which is not non-negative under the IEEE
comparison. -/
theorem cex_C5 :
    (∀ x ∈ [F.fin c01, F.fin c01, F.fin c01], x = F.fin c01)
      ∧ dispersion64 [F.fin c01, F.fin c01, F.fin c01] = F.fin ((2 : ℚ) ^ (-112 : ℤ))
      ∧ dispersion64 [F.fin c01, F.fin c01, F.fin c01] ≠ F.fin 0
      ∧ dispersion64 ([] : List F) = F.nan false
      ∧ fleIEEE (F.fin 0) (dispersion64 ([] : List F)) = false := by
  refine ⟨?_, dispersion64_c01, ?_, rfl, rfl⟩
  · intro x hx
    simp only [List.mem_cons, List.not_mem_nil, or_false] at hx
    rcases hx with h | h | h <;> exact h
  · rw [dispersion64_c01]
    simp only [ne_eq, F.fin.injEq]
    exact (two_zpow_pos (-112)).ne'

/-- One `tails` step keeps the buffers equal to the first `k` and the
last `k` of the processed part of the stream. -/
theorem tailsStep_eq (k : ℕ) (p : List F) (x : F) :
    tailsStep k (p.take k, p.drop (p.length - k)) x
      = ((p ++ [x]).take k, (p ++ [x]).drop ((p ++ [x]).length - k)) := by
  simp only [tailsStep]
  have hlen1 : (p ++ [x]).length = p.length + 1 := by simp
  by_cases hk : p.length < k
  · have h1 : (p.take k).length < k := by rw [List.length_take]; omega
    have htkp : p.take k = p := List.take_of_length_le (by omega)
    have hd0 : p.length - k = 0 := by omega
    have hdrop : p.drop (p.length - k) = p := by rw [hd0, List.drop_zero]
    have hnot : ¬ k < (p.drop (p.length - k) ++ [x]).length := by
      rw [hdrop, List.length_append]; simp; omega
    rw [if_pos h1, if_neg hnot, htkp, hdrop]
    have htk2 : (p ++ [x]).take k = p ++ [x] := List.take_of_length_le (by rw [hlen1]; omega)
    have hd1 : (p ++ [x]).length - k = 0 := by rw [hlen1]; omega
    rw [htk2, hd1, List.drop_zero]
  · have h1 : ¬ (p.take k).length < k := by rw [List.length_take]; omega
    have hpos : k < (p.drop (p.length - k) ++ [x]).length := by
      rw [List.length_append, List.length_drop]; simp; omega
    have htk2 : (p ++ [x]).take k = p.take k := List.take_append_of_le_length (by omega)
    rw [if_neg h1, if_pos hpos, htk2]
    have hlen2 : (p ++ [x]).length - k = (p.length - k) + 1 := by rw [hlen1]; omega
    rw [hlen2]
    by_cases hk0 : k = 0
    · subst hk0
      rw [Nat.sub_zero, List.drop_length]
      have : (p ++ [x]).drop (p.length + 1) = [] := by
        apply List.drop_eq_nil_of_le
        rw [hlen1]
      rw [this]
      rfl
    · have hne : p.drop (p.length - k) ≠ [] := by
        intro hcontr
        have := congrArg List.length hcontr
        rw [List.length_drop] at this
        simp at this
        omega
      obtain ⟨a, A, hA⟩ := List.exists_cons_of_ne_nil hne
      have hdrop1 : p.drop (p.length - k + 1) = A := by
        have htl := congrArg List.tail hA
        rw [List.tail_drop] at htl
        simpa using htl
      have hd2 : (p ++ [x]).drop (p.length - k + 1) = p.drop (p.length - k + 1) ++ [x] :=
        List.drop_append_of_le_length (by omega)
      rw [hA, hd2, hdrop1]
      rfl

theorem tails_invariant (k : ℕ) (s : List F) :
    ∀ p : List F,
      s.foldl (tailsStep k) (p.take k, p.drop (p.length - k))
        = ((p ++ s).take k, (p ++ s).drop ((p ++ s).length - k)) := by
  induction s with
  | nil => intro p; simp
  | cons x xs ih =>
    intro p
    rw [List.foldl_cons, tailsStep_eq]
    have h := ih (p ++ [x])
    rw [List.append_assoc] at h
    simpa using h

/-- C4, amended: `tails` returns the first `min(n, k)` values of the
stream as the left buffer and the last `min(n, k)` values of the
stream, in original order, as the right buffer (the right buffer
itself is oldest-first; its reversal is newest-first, not original
order). -/
theorem spec_C4 (s : List F) (k : ℕ) :
    tails s k = (s.take k, s.drop (s.length - k))
      ∧ (tails s k).1.length = min s.length k
      ∧ (tails s k).2.length = min s.length k := by
  have h := tails_invariant k s []
  simp only [List.take_nil, List.length_nil, Nat.zero_sub, List.drop_nil,
    List.nil_append] at h
  have htails : tails s k = (s.take k, s.drop (s.length - k)) := h
  refine ⟨htails, ?_, ?_⟩
  · rw [htails, List.length_take]; omega
  · rw [htails, List.length_drop]; omega

/-- C4 counterexample: for the stream `[1, 2]` with capacity 2, the
suffix buffer is `[1, 2]` (already the last two values in original
order); its reversal `[2, 1]` is not. -/
theorem cex_C4 :
    (tails [F.fin 1, F.fin 2] 2).2.reverse ≠ [F.fin 1, F.fin 2]
      ∧ (tails [F.fin 1, F.fin 2] 2).2 = [F.fin 1, F.fin 2] := by
  constructor
  · decide
  · decide

/-- C6, amended: `min_max` returns `none` on the empty stream; on a
nonempty stream of finite values it returns the least and greatest
values.  On a stream containing NaN the result is not the `total_cmp`
extremum, because `f64::min` and `f64::max` discard NaN (see the
counterexample). -/
theorem spec_C6 :
    min_max ([] : List F) = none
      ∧ ∀ s : List ℚ, s ≠ [] →
          ∃ a b, min_max (s.map F.fin) = some (F.fin a, F.fin b)
            ∧ a ∈ s ∧ b ∈ s ∧ ∀ x ∈ s, a ≤ x ∧ x ≤ b := by
  refine ⟨rfl, ?_⟩
  intro s hs
  cases s with
  | nil => exact absurd rfl hs
  | cons y ys =>
    refine ⟨ys.foldl min y, ys.foldl max y, min_max_map_fin y ys, ?_, ?_, ?_⟩
    · rcases foldl_min_mem ys y with h | h
      · rw [h]; exact List.mem_cons_self y ys
      · exact List.mem_cons_of_mem y h
    · rcases foldl_max_mem ys y with h | h
      · rw [h]; exact List.mem_cons_self y ys
      · exact List.mem_cons_of_mem y h
    · intro x hx
      rcases List.mem_cons.mp hx with rfl | h
      · exact ⟨foldl_min_le_start ys x, le_foldl_max_start ys x⟩
      · exact ⟨foldl_min_le_mem ys y x h, mem_le_foldl_max ys y x h⟩

/-- C6 counterexample: the stream `[1, NaN]` contains a value that is
strictly greatest in the `total_cmp` order (the positive NaN), yet
`min_max` reports `(1, 1)`: the extrema are not computed with a
`total_cmp`-equivalent order. -/
theorem cex_C6 :
    min_max [F.fin 1, F.nan false] = some (F.fin 1, F.fin 1)
      ∧ F.totalCmp (F.nan false) (F.fin 1) = Ordering.gt
      ∧ F.nan false ∈ [F.fin 1, F.nan false] := by
  refine ⟨by decide, by decide, by decide⟩

/-- C6 witness on the finite stream `[2, 1]`. -/
theorem w_C6 :
    ([(2 : ℚ), (1 : ℚ)] ≠ [])
      ∧ ∃ a b, min_max ([(2 : ℚ), (1 : ℚ)].map F.fin) = some (F.fin a, F.fin b)
          ∧ a ∈ [(2 : ℚ), (1 : ℚ)] ∧ b ∈ [(2 : ℚ), (1 : ℚ)]
          ∧ ∀ x ∈ [(2 : ℚ), (1 : ℚ)], a ≤ x ∧ x ≤ b :=
  ⟨by simp, spec_C6.2 [2, 1] (by simp)⟩

/-- C9, amended: for a nonempty stream of finite doubles of magnitude
at most `2^1022`, `min_max` returns the least and greatest values, and
any estimate the binary64 bisection returns from these seeds lies
between them (exactly, which implies the claimed tolerance).  The
mean half of the claim is false of the program: rounding can push the
mean above the maximum, and the sum can overflow to infinity (see the
counterexample). -/
theorem spec_C9 (s : List ℚ) (hs : s ≠ [])
    (hrep : ∀ x ∈ s, isRepr64 x ∧ |x| ≤ (2 : ℚ) ^ (1022 : ℤ)) :
    ∃ a b, min_max (s.map F.fin) = some (F.fin a, F.fin b)
      ∧ (∀ x ∈ s, a ≤ x ∧ x ≤ b)
      ∧ ∀ (n : ℕ) (m : F),
          find_median64 n (s.map F.fin) (F.fin a) (F.fin b) = some m →
          ∃ q, m = F.fin q ∧ a ≤ q ∧ q ≤ b := by
  cases s with
  | nil => exact absurd rfl hs
  | cons y ys =>
    have hbound : ∀ x ∈ y :: ys, ys.foldl min y ≤ x ∧ x ≤ ys.foldl max y := by
      intro x hx
      rcases List.mem_cons.mp hx with rfl | h
      · exact ⟨foldl_min_le_start ys x, le_foldl_max_start ys x⟩
      · exact ⟨foldl_min_le_mem ys y x h, mem_le_foldl_max ys y x h⟩
    have ha22 : isRepr22 (ys.foldl min y) := by
      rcases foldl_min_mem ys y with h | h
      · rw [h]
        exact hrep y (List.mem_cons_self y ys)
      · exact hrep _ (List.mem_cons_of_mem _ h)
    have hb22 : isRepr22 (ys.foldl max y) := by
      rcases foldl_max_mem ys y with h | h
      · rw [h]
        exact hrep y (List.mem_cons_self y ys)
      · exact hrep _ (List.mem_cons_of_mem _ h)
    have hab : ys.foldl min y ≤ ys.foldl max y :=
      le_trans (hbound y (List.mem_cons_self y ys)).1 (hbound y (List.mem_cons_self y ys)).2
    refine ⟨ys.foldl min y, ys.foldl max y, min_max_map_fin y ys, hbound, ?_⟩
    intro n m hm
    exact find_median64_bounds n ((y :: ys).map F.fin) _ _ m ha22 hb22 hab hm

/-- C9 witness on the stream `[1]`. -/
theorem w_C9 :
    ([(1 : ℚ)] ≠ [])
      ∧ (∀ x ∈ [(1 : ℚ)], isRepr64 x ∧ |x| ≤ (2 : ℚ) ^ (1022 : ℤ))
      ∧ ∃ a b, min_max ([(1 : ℚ)].map F.fin) = some (F.fin a, F.fin b)
          ∧ (∀ x ∈ [(1 : ℚ)], a ≤ x ∧ x ≤ b)
          ∧ ∀ (n : ℕ) (m : F),
              find_median64 n ([(1 : ℚ)].map F.fin) (F.fin a) (F.fin b) = some m →
              ∃ q, m = F.fin q ∧ a ≤ q ∧ q ≤ b := by
  have h1 : ([(1 : ℚ)] : List ℚ) ≠ [] := by simp
  have h2 : ∀ x ∈ [(1 : ℚ)], isRepr64 x ∧ |x| ≤ (2 : ℚ) ^ (1022 : ℤ) := by
    intro x hx
    rw [List.mem_singleton] at hx
    subst hx
    exact ⟨isRepr64_mk 1 0 1 (by norm_num) (by norm_num) (by norm_num) (by norm_num),
      by norm_num⟩
  exact ⟨h1, h2, spec_C9 [1] h1 h2⟩

/-- C9 counterexample: on the stream `[2^1023, 2^1023]` the reported
maximum is `2^1023` but the binary64 mean is positive infinity (the
sum overflows), so `mean <= max` fails under the IEEE comparison; and
on `[0.1, 0.1, 0.1]` the binary64 mean `0.1 + 2^-56` strictly exceeds
the maximum `0.1` although every value is finite and far from
overflow. -/
theorem cex_C9 :
    min_max [F.fin vC9, F.fin vC9] = some (F.fin vC9, F.fin vC9)
      ∧ average64 [F.fin vC9, F.fin vC9] = F.inf false
      ∧ fleIEEE (average64 [F.fin vC9, F.fin vC9]) (F.fin vC9) = false
      ∧ min_max [F.fin c01, F.fin c01, F.fin c01] = some (F.fin c01, F.fin c01)
      ∧ average64 [F.fin c01, F.fin c01, F.fin c01] = F.fin mean01
      ∧ c01 < mean01 := by
  refine ⟨?_, average64_vC9, ?_, ?_, mean01_eq, c01_lt_mean01⟩
  · rw [show [F.fin vC9, F.fin vC9] = [vC9, vC9].map F.fin from rfl, min_max_map_fin]
    simp
  · rw [average64_vC9]
    rfl
  · rw [show [F.fin c01, F.fin c01, F.fin c01] = [c01, c01, c01].map F.fin from rfl,
      min_max_map_fin]
    simp

/-- C5 witness on the stream `[1]`. -/
theorem w_C5 :
    ([F.fin (1 : ℚ)] ≠ [])
      ∧ (∀ x ∈ [F.fin (1 : ℚ)], ∃ q : ℚ, x = F.fin q)
      ∧ (dispersion64 [F.fin (1 : ℚ)]
            = fdiv64 (([F.fin (1 : ℚ)].foldl (sqDevStep64 (average64 [F.fin (1 : ℚ)]))
                (F.fin 0, 0)).1)
              (F.fin ((([F.fin (1 : ℚ)].foldl (sqDevStep64 (average64 [F.fin (1 : ℚ)]))
                  (F.fin 0, 0)).2 : ℕ) : ℚ))
          ∧ ([F.fin (1 : ℚ)].foldl (sqDevStep64 (average64 [F.fin (1 : ℚ)]))
              (F.fin 0, 0)).2 = [F.fin (1 : ℚ)].length
          ∧ fleIEEE (F.fin 0) (dispersion64 [F.fin (1 : ℚ)]) = true) := by
  have h1 : ([F.fin (1 : ℚ)] : List F) ≠ [] := by simp
  have h2 : ∀ x ∈ [F.fin (1 : ℚ)], ∃ q : ℚ, x = F.fin q := by
    intro x hx
    rw [List.mem_singleton] at hx
    exact ⟨1, hx⟩
  exact ⟨h1, h2, spec_C5 [F.fin (1 : ℚ)] h1 h2⟩

/-- C7: one unparsable token (an empty token from consecutive
delimiters included) makes the scan abort, so every statistic reports
the parse failure and no partial result. -/
theorem spec_C7 (src : List ℕ) (k fuel : ℕ)
    (h : ∃ t ∈ rustSplit src, parseF64 t = none) :
    lenSrc src = none ∧ min_maxSrc src = none ∧ averageSrc src = none
      ∧ dispersionSrc src = none ∧ medianSrc fuel src = none ∧ tailsSrc src k = none := by
  obtain ⟨t, ht, hfail⟩ := h
  exact stats_all_none src k fuel (parseAll_eq_none _ t ht hfail)

/-- C7 witness at the source `"1 2 x 4"`: the token `x` fails to
parse, so the count fails instead of returning 3, as do the other
statistics. -/
theorem w_C7 :
    (∃ t ∈ rustSplit [49, 32, 50, 32, 120, 32, 52], parseF64 t = none)
      ∧ (lenSrc [49, 32, 50, 32, 120, 32, 52] = none
          ∧ min_maxSrc [49, 32, 50, 32, 120, 32, 52] = none
          ∧ averageSrc [49, 32, 50, 32, 120, 32, 52] = none
          ∧ dispersionSrc [49, 32, 50, 32, 120, 32, 52] = none
          ∧ medianSrc 5 [49, 32, 50, 32, 120, 32, 52] = none
          ∧ tailsSrc [49, 32, 50, 32, 120, 32, 52] 2 = none) := by
  have h : ∃ t ∈ rustSplit [49, 32, 50, 32, 120, 32, 52], parseF64 t = none :=
    ⟨[120], by decide, by decide⟩
  exact ⟨h, spec_C7 _ 2 5 h⟩

/-- C8: when every token parses, the count equals the number of
space-delimited tokens, and the empty source yields 0 successfully. -/
theorem spec_C8 :
    (∀ src : List ℕ, (∀ t ∈ rustSplit src, (parseF64 t).isSome = true) →
        lenSrc src = some (rustSplit src).length)
      ∧ lenSrc [] = some 0 := by
  refine ⟨?_, rfl⟩
  intro src h
  obtain ⟨vs, hvs, hlen⟩ := parseAll_isSome (rustSplit src) h
  have hff : for_file src = some vs := hvs
  rw [lenSrc, hff]
  simp [len_eq_length, hlen]

/-- C8 witness at the source `"1 2"`. -/
theorem w_C8 :
    (∀ t ∈ rustSplit [49, 32, 50], (parseF64 t).isSome = true)
      ∧ lenSrc [49, 32, 50] = some (rustSplit [49, 32, 50]).length :=
  ⟨by decide, spec_C8.1 [49, 32, 50] (by decide)⟩

/-- C10: the scan splits on the single byte 0x20 and on nothing else
(splitting is inverse to interleaving that byte), so a tab, newline or
carriage return stays inside a token; a source whose last token ends
in such a byte makes every statistic fail with a parse error. -/
theorem spec_C10 :
    (∀ src : List ℕ, joinWith (splitBytes [] src) = src)
      ∧ ∀ (src : List ℕ) (b k fuel : ℕ), b = 9 ∨ b = 10 ∨ b = 13 →
          lenSrc (src ++ [b]) = none ∧ min_maxSrc (src ++ [b]) = none
            ∧ averageSrc (src ++ [b]) = none ∧ dispersionSrc (src ++ [b]) = none
            ∧ medianSrc fuel (src ++ [b]) = none ∧ tailsSrc (src ++ [b]) k = none := by
  constructor
  · intro src
    simpa using joinWith_splitBytes src []
  · intro src b k fuel hb
    have hb32 : b ≠ 32 := by rcases hb with rfl | rfl | rfl <;> decide
    have hbad : allowed b = false := by rcases hb with rfl | rfl | rfl <;> decide
    exact stats_all_none _ k fuel (for_file_append_bad src b hb32 hbad)

/-- C10 witness at the source `"1\n"` (the bytes `[49, 10]`). -/
theorem w_C10 :
    ((10 : ℕ) = 9 ∨ (10 : ℕ) = 10 ∨ (10 : ℕ) = 13)
      ∧ (lenSrc ([49] ++ [10]) = none ∧ min_maxSrc ([49] ++ [10]) = none
          ∧ averageSrc ([49] ++ [10]) = none ∧ dispersionSrc ([49] ++ [10]) = none
          ∧ medianSrc 1 ([49] ++ [10]) = none ∧ tailsSrc ([49] ++ [10]) 2 = none) :=
  ⟨Or.inr (Or.inl rfl), spec_C10.2 [49] 10 2 1 (Or.inr (Or.inl rfl))⟩

end FileStat
